import Mathlib

/-!
# Sandbox: the dynamic array of `Array.h` and the string of `String.h`

A shallow embedding of `Array<Type, SizeBias, Allocator>` (src/Sandbox/Array.h) and of
`String` (src/Sandbox/String.h), which keeps its characters in a block of the same kind,
followed by the sorted map of src/Sandbox/BinaryHashMap.h and the chunked search of
src/Sandbox/FastMap.cpp, both over a `std::vector`, modelled as a list.

Memory model.  The array owns at most one block.  A block is a list of slots, one per
element; a slot is `none` while it has never been written and `some x` once it holds `x`.
The three data members are kept as they are in the class: `pBegin` is the block the begin
pointer refers to (`none` is `nullptr`), `pNext` and `pEnd` are the distances, in elements,
of the two other pointers from `pBegin`.

* A read (`*p`, `p[i]`) yields `Option Type`: `none` when the location lies outside the
  block or has never been written, so that the value read is not a defined one.  Reading
  never changes the state.
* A write or a `memmove` that leaves the block, and pointer arithmetic that would place
  `pNext` below `pBegin`, have no defined outcome: the operation returns `none`.
* Element counts are natural numbers.  The `size_t` arithmetic of the code is computed
  modulo `2 ^ 64`: the sum `capacity() + size` of `getNewCapacity` and the difference
  `newCapacity - size` of `extend`, whose operand is chosen by the caller, the mixed
  `long long` / `size_t` arithmetic of the index operations, and the `-1` returned by `find`.
  Statements about growth carry the bound that keeps the sum below `2 ^ 64`, statements
  about negative indices the bound `size() < 2 ^ 63`.
* An argument of type `const Type&` is a reference, `Ref`: to an object outside the block of
  the array, or to a slot of the block the array owns when the member is called.  It is read
  where the member reads it; a reference into a block that has been destroyed by then has
  no defined value.
* `Allocator::CreateNewBlock` is taken to succeed; `Allocator::DestroyBlock` frees the block.
  The definitions `tryExtend`, `tryPushBack`, `tryPushFront` and `tryResize` follow the same
  members under an allocator that may refuse a request, in which case `operator new[]`
  throws and the exception leaves the member at that statement.
* A loop is followed for a bounded number of tests of its condition (its fuel); the fuel
  given is more than the tests the loop can make, except for `occurence`, whose fuel is a
  parameter.
* `Type` is trivially destructible (the container moves elements with `memmove`), so the
  explicit destructor call of `remove` does nothing.
-/

namespace Sandbox

/-- A block of raw memory, one slot per element: `none` is a slot never written. -/
abbrev Block (T : Type) := List (Option T)

/-- The class `Array<Type, SizeBias, Allocator>`: the block `pBegin` points to (`none` for
`nullptr`) and the offsets of `pNext` and `pEnd` from `pBegin`, counted in elements. -/
structure Array (T : Type) (SizeBias : Nat) where
  pBegin : Option (Block T)
  pNext : Nat
  pEnd : Nat
deriving DecidableEq

/-- Conversion of a `long long` to `size_t` (modulo `2 ^ 64`). -/
def toSizeT (i : Int) : Nat := (i % (2 ^ 64 : Int)).toNat

/-- Conversion of a `size_t` to `long long` (two's complement). -/
def toLongLong (n : Nat) : Int :=
  if n % 2 ^ 64 < 2 ^ 63 then ((n % 2 ^ 64 : Nat) : Int) else ((n % 2 ^ 64 : Nat) : Int) - 2 ^ 64

/-- The subtraction of two `size_t` values, modulo `2 ^ 64`. -/
def subSizeT (x y : Nat) : Nat := (x % 2 ^ 64 + 2 ^ 64 - y % 2 ^ 64) % 2 ^ 64

/-- An argument of type `const Type&`.  The reference `value v` is to an object outside the
block of the array, which holds `v` during the whole call; the reference `element i` is to
`pBegin[i]`, a slot of the block the array owns when the member is called, as in
`a.pushBack(a[i])`. -/
inductive Ref (T : Type) where
  | value (v : T)
  | element (i : Nat)
deriving DecidableEq

/-- Function `ArrayAllocator::CreateNewBlock`, called with a byte size of
`typeSize() * count`: a fresh block of `count` slots, none of them written. -/
def CreateNewBlock {T : Type} (count : Nat) : Block T := List.replicate count none

/-- The write `*(pBlock + off) = value`: undefined outside the block. -/
def writeSlot {T : Type} (blk : Block T) (off : Nat) (value : T) : Option (Block T) :=
  if off < blk.length then some (blk.set off (some value)) else none

/-- Function `Array::moveBlock(pDst, pSrcBegin, pSrcEnd)`, a `memmove` of
`pSrcEnd - pSrcBegin` elements; it is undefined when that count is negative or when either
range leaves its block.  `dst` and `pDst` are the block and the offset of the destination,
`src` is the block of the source range `[pSrcBegin, pSrcEnd)`.  For a move inside one block
`dst` and `src` are the same block, and the source range is read before anything is written
(`memmove`).  The result is the destination block after the move. -/
def moveBlock {T : Type} (dst : Block T) (pDst : Nat) (src : Block T) (pSrcBegin pSrcEnd : Nat) :
    Option (Block T) :=
  if pSrcBegin ≤ pSrcEnd ∧ pSrcEnd ≤ src.length ∧ pDst + (pSrcEnd - pSrcBegin) ≤ dst.length then
    some (dst.take pDst ++ (src.drop pSrcBegin).take (pSrcEnd - pSrcBegin)
      ++ dst.drop (pDst + (pSrcEnd - pSrcBegin)))
  else none

/-- Function `Array::initializeBlock(pDst, value, count)`:
`while (count--) *pDst = value, pDst++;`. -/
def initializeBlock {T : Type} (blk : Block T) (pDst : Nat) (value : T) : Nat → Option (Block T)
  | 0 => some blk
  | count + 1 =>
    match writeSlot blk pDst value with
    | none => none
    | some blk1 => initializeBlock blk1 (pDst + 1) value count

/-- Function `Array::copyBlock(pDst, pSrcBegin, pSrcEnd)`, a `memcpy` of
`pSrcEnd - pSrcBegin` elements from the block `src` into the block `dst`, which is another
block; it is undefined when that count is negative or when either range leaves its block.
The result is the destination block after the copy. -/
def copyBlock {T : Type} (dst : Block T) (pDst : Nat) (src : Block T) (pSrcBegin pSrcEnd : Nat) :
    Option (Block T) :=
  if pSrcBegin ≤ pSrcEnd ∧ pSrcEnd ≤ src.length ∧ pDst + (pSrcEnd - pSrcBegin) ≤ dst.length then
    some (dst.take pDst ++ (src.drop pSrcBegin).take (pSrcEnd - pSrcBegin)
      ++ dst.drop (pDst + (pSrcEnd - pSrcBegin)))
  else none

namespace Array

variable {T : Type} {SizeBias : Nat}

/-- Constructor `Array()`: the three pointers are `nullptr`. -/
def empty : Array T SizeBias := { pBegin := none, pNext := 0, pEnd := 0 }

/-- Member `size()`: `pNext - pBegin`. -/
def size (a : Array T SizeBias) : Nat := a.pNext

/-- Member `capacity()`: `pEnd - pBegin`. -/
def capacity (a : Array T SizeBias) : Nat := a.pEnd

/-- The slots of the block of `a`; no slot at all when `pBegin` is `nullptr`. -/
def slots (a : Array T SizeBias) : Block T := a.pBegin.getD []

/-- The read `pBegin[off]` for an offset `off ≥ 0`. -/
def deref (a : Array T SizeBias) (off : Nat) : Option T :=
  match a.pBegin with
  | none => none
  | some blk => (blk[off]?).join

/-- The read `pBegin[index]` for a signed index. -/
def subscript (a : Array T SizeBias) (index : Int) : Option T :=
  if index < 0 then none else a.deref index.toNat

/-- Member `getNewCapacity(newElementCount)`: `capacity() + newElementCount`, a sum of two
`size_t` values, computed modulo `2 ^ 64`. -/
def getNewCapacity (a : Array T SizeBias) (newElementCount : Nat) : Nat :=
  (a.capacity + newElementCount) % 2 ^ 64

/-- The read of the object an argument of type `const Type&` refers to, made while the array
is in state `a`.  The flag `freed` tells that the block the array owned when the member was
called has been destroyed since: a reference into it dangles and the read has no defined
value.  A slot of a block the array still owns is read as it is at the time of the read. -/
def readRef (a : Array T SizeBias) (freed : Bool) : Ref T → Option T
  | .value v => some v
  | .element i => if freed then none else a.deref i

/-- Member `clear()`: the block is destroyed when there is one, the pointers are reset to
`nullptr`. -/
def clear (_a : Array T SizeBias) : Array T SizeBias :=
  { pBegin := none, pNext := 0, pEnd := 0 }

/-- Member `extend(size)`: a block of `getNewCapacity(size)` slots is created, the elements
`[pBegin, pNext)` are moved to its start, the old block is cleared, and the pointers are set
to `pBegin = pBlock`, `pNext = pBegin + (newCapacity - size)`, `pEnd = pBegin + newCapacity`.
The difference `newCapacity - size` is one of `size_t` values, computed modulo `2 ^ 64`.
Moving from a `nullptr` block moves no element. -/
def extend (a : Array T SizeBias) (size : Nat) : Option (Array T SizeBias) :=
  let newCapacity := a.getNewCapacity size
  let pBlock : Block T := CreateNewBlock newCapacity
  match moveBlock pBlock 0 a.slots 0 a.pNext with
  | none => none
  | some pBlock1 =>
    let a1 := a.clear
    some { a1 with pBegin := some pBlock1, pNext := subSizeT newCapacity size,
                   pEnd := newCapacity }

/-- The test `if (pNext == pEnd) extend();` that opens `pushBack` and `pushFront`; the call
`extend()` takes the default argument `SizeBias`. -/
def extendIfFull (a : Array T SizeBias) : Option (Array T SizeBias) :=
  if a.pNext = a.pEnd then a.extend SizeBias else some a

/-- Member `pushBack(const Type& value)`:
`if (pNext == pEnd) extend(); *pNext = value; pNext++;`.  The argument is read by the
assignment, after `extend()` has destroyed the old block when the array was full. -/
def pushBack (a : Array T SizeBias) (value : Ref T) : Option (Array T SizeBias) :=
  match a.extendIfFull with
  | none => none
  | some a1 =>
    match a1.readRef (decide (a.pNext = a.pEnd)) value with
    | none => none
    | some v =>
      match writeSlot a1.slots a1.pNext v with
      | none => none
      | some blk => some { a1 with pBegin := some blk, pNext := a1.pNext + 1 }

/-- Member `popBack()`: `return *(pNext--);`.  The operand of `*` is the value `pNext` had before
the decrement.  The first component is the value read. -/
def popBack (a : Array T SizeBias) : Option (Option T × Array T SizeBias) :=
  if a.pNext = 0 then none
  else some (a.deref a.pNext, { a with pNext := a.pNext - 1 })

/-- Member `pushFront(const Type& value)`: `if (pNext == pEnd) extend();`
`moveBlock(pBegin + 1, pBegin, pNext); pBegin[0] = value; pNext++;`.  The argument is read
by the assignment, after `extend()` has destroyed the old block when the array was full and
after the elements have been moved. -/
def pushFront (a : Array T SizeBias) (value : Ref T) : Option (Array T SizeBias) :=
  match a.extendIfFull with
  | none => none
  | some a1 =>
    match moveBlock a1.slots 1 a1.slots 0 a1.pNext with
    | none => none
    | some blk1 =>
      match ({ a1 with pBegin := some blk1 } : Array T SizeBias).readRef
          (decide (a.pNext = a.pEnd)) value with
      | none => none
      | some v =>
        match writeSlot blk1 0 v with
        | none => none
        | some blk2 => some { a1 with pBegin := some blk2, pNext := a1.pNext + 1 }

/-- Member `popFront()`: `retValue = pBegin[0]; moveBlock(pBegin, pBegin + 1, pNext);`
`pNext--; return retValue;`.  The first component is the value read from `pBegin[0]`. -/
def popFront (a : Array T SizeBias) : Option (Option T × Array T SizeBias) :=
  let retValue := a.deref 0
  match moveBlock a.slots 0 a.slots 1 a.pNext with
  | none => none
  | some blk => some (retValue, { a with pBegin := some blk, pNext := a.pNext - 1 })

/-- The index processing shared by `at`, `remove` and `location`:
`if (index < 0) index = size() + index;`, computed in `size_t` and converted back. -/
def processIndex (a : Array T SizeBias) (index : Int) : Int :=
  if index < 0 then toLongLong ((a.size + toSizeT index) % 2 ^ 64) else index

/-- Member `at(index)`: the index is processed, then `pBegin[index]` is read. -/
def at_ (a : Array T SizeBias) (index : Int) : Option T :=
  a.subscript (a.processIndex index)

/-- Member `operator[](index)`: `return at(index);`. -/
def index (a : Array T SizeBias) (index : Int) : Option T :=
  a.at_ index

/-- Member `remove(index)`: the index is processed, the destructor of `at(index)` is called
(it does nothing for the trivially destructible types the container is meant for), then
`moveBlock(pBegin + index, pBegin + index + 1, pNext); pNext--;`. -/
def remove (a : Array T SizeBias) (index : Int) : Option (Array T SizeBias) :=
  let index := a.processIndex index
  if index < 0 then none
  else
    match moveBlock a.slots index.toNat a.slots (index.toNat + 1) a.pNext with
    | none => none
    | some blk => some { a with pBegin := some blk, pNext := a.pNext - 1 }

/-- Member `resize(size, const Type& value)`: nothing is done for `size == 0`; otherwise the
array is cleared, a block of `size` slots is created and initialized with `value`, and
`pNext` and `pEnd` are both set to `pBegin + size`.  The argument is read by
`initializeBlock`, after `clear()` has destroyed the block the array owned. -/
def resize (a : Array T SizeBias) (size : Nat) (value : Ref T) : Option (Array T SizeBias) :=
  if size = 0 then some a
  else
    let a1 := a.clear
    match a1.readRef true value with
    | none => none
    | some v =>
      match initializeBlock (CreateNewBlock size) 0 v size with
      | none => none
      | some blk => some { a1 with pBegin := some blk, pNext := size, pEnd := size }

/-- The loop of `find`, entered with the loop variable at `index`:
`for (; index < size(); index++) if (pBegin[index] == value) return index; return -1;`.
`fuel` bounds the number of tests of the loop condition. -/
def findLoop [DecidableEq T] (a : Array T SizeBias) (value : T) : Nat → Nat → Option Nat
  | 0, _ => none
  | fuel + 1, index =>
    if index < a.size then
      match a.deref index with
      | none => none
      | some x => if x = value then some index else findLoop a value fuel (index + 1)
    else some (2 ^ 64 - 1)

/-- Member `find(value)`: the loop started at index 0.  The loop condition is tested at most
`size() + 1` times, which is the fuel given. -/
def find [DecidableEq T] (a : Array T SizeBias) (value : T) : Option Nat :=
  findLoop a value (a.size + 1) 0

/-- The layout every constructor and operation sets up: the block has `capacity()` slots and
`pBegin ≤ pNext ≤ pEnd`. -/
def WF (a : Array T SizeBias) : Prop :=
  a.pNext ≤ a.pEnd ∧ a.slots.length = a.pEnd

instance (a : Array T SizeBias) : Decidable a.WF := by
  unfold WF
  infer_instance

/-- A call of `pushBack`, on an object outside the block of the array, or of `popBack`. -/
inductive BackOp (T : Type) where
  | pushBack (value : T)
  | popBack
deriving DecidableEq

/-- Number of `pushBack` calls in a sequence. -/
def countPushBack : List (BackOp T) → Nat
  | [] => 0
  | .pushBack _ :: ops => countPushBack ops + 1
  | .popBack :: ops => countPushBack ops

/-- Number of `popBack` calls in a sequence. -/
def countPopBack : List (BackOp T) → Nat
  | [] => 0
  | .pushBack _ :: ops => countPopBack ops
  | .popBack :: ops => countPopBack ops + 1

/-- One call of the sequence applied to `a`; the value `popBack` returns is dropped. -/
def stepBack (a : Array T SizeBias) : BackOp T → Option (Array T SizeBias)
  | .pushBack value => a.pushBack (.value value)
  | .popBack => (a.popBack).map Prod.snd

/-- The calls of a sequence applied one after the other, starting from `a`. -/
def runBack (a : Array T SizeBias) : List (BackOp T) → Option (Array T SizeBias)
  | [] => some a
  | op :: ops =>
    match a.stepBack op with
    | none => none
    | some a1 => runBack a1 ops

/-- The calls `pushFront(x1)`, ..., `pushFront(xn)` applied to `a`, the arguments being
objects outside the block of the array. -/
def pushFrontAll (a : Array T SizeBias) : List T → Option (Array T SizeBias)
  | [] => some a
  | x :: xs =>
    match a.pushFront (.value x) with
    | none => none
    | some a1 => pushFrontAll a1 xs

/-- The call `popFront()` made `n` times on `a`: the values returned, in call order, and the
final array. -/
def popFrontN (a : Array T SizeBias) : Nat → Option (List (Option T) × Array T SizeBias)
  | 0 => some ([], a)
  | n + 1 =>
    match a.popFront with
    | none => none
    | some (v, a1) =>
      match popFrontN a1 n with
      | none => none
      | some (vs, a2) => some (v :: vs, a2)

/-- The array `a` is well formed and holds exactly the values `xs`: `size()` is the length of
`xs` and `at(i)` is the `i`-th value of `xs`. -/
def HasElems (a : Array T SizeBias) (xs : List T) : Prop :=
  a.WF ∧ a.size = xs.length ∧ ∀ i : Nat, i < a.size → a.at_ (i : Int) = xs[i]?

/-- The values read back by `xs.length` calls of `popFront()` made after the calls
`pushFront(x1)`, ..., `pushFront(xn)` on an empty array. -/
def pushFrontThenPopFront (SizeBias : Nat) (xs : List T) : Option (List (Option T)) :=
  match (Array.empty : Array T SizeBias).pushFrontAll xs with
  | none => none
  | some a => (a.popFrontN xs.length).map Prod.fst

/-- Constructor `Array(size, value)`: the pointers start as `nullptr`; nothing more is done
for `size == 0`; otherwise a block of `size` slots is created and initialized with `value`,
and `pNext` and `pEnd` are both set to `pBegin + size`. -/
def construct (size : Nat) (value : T) : Option (Array T SizeBias) :=
  let a : Array T SizeBias := { pBegin := none, pNext := 0, pEnd := 0 }
  if size = 0 then some a
  else
    match initializeBlock (CreateNewBlock size) 0 value size with
    | none => none
    | some blk => some { a with pBegin := some blk, pNext := size, pEnd := size }

/-- Constructor `Array(std::initializer_list<Type> list)`: the pointers start as `nullptr`;
nothing more is done for an empty list; otherwise a block of `list.size()` slots is created,
the range `[list.begin(), list.end())` is copied into it, and `pNext` and `pEnd` are both
set to `pBegin + list.size()`.  The storage of the list is a block of written slots. -/
def constructList (list : List T) : Option (Array T SizeBias) :=
  let a : Array T SizeBias := { pBegin := none, pNext := 0, pEnd := 0 }
  if list.length = 0 then some a
  else
    match copyBlock (CreateNewBlock list.length) 0 (list.map some) 0 list.length with
    | none => none
    | some blk => some { a with pBegin := some blk, pNext := list.length, pEnd := list.length }

/-- Copy constructor `Array(const Array& other)`: the pointers start as `nullptr`; nothing
more is done when `other.size()` is 0; otherwise a block of `other.size()` slots is created,
the range `[other.pBegin, other.pNext)` is copied into it, and `pNext` and `pEnd` are both
set to `pBegin + other.size()`.  The result is the new array and `other`, which the
constructor only reads. -/
def copyConstruct (other : Array T SizeBias) : Option (Array T SizeBias × Array T SizeBias) :=
  let a : Array T SizeBias := { pBegin := none, pNext := 0, pEnd := 0 }
  if other.size = 0 then some (a, other)
  else
    match copyBlock (CreateNewBlock other.size) 0 other.slots 0 other.pNext with
    | none => none
    | some blk => some ({ a with pBegin := some blk, pNext := other.size, pEnd := other.size },
        other)

/-- Move constructor `Array(Array&& other)`: the pointers start as `nullptr`; nothing more is
done when `other.size()` is 0; otherwise the three pointers of `other` are taken over and
those of `other` are reset to `nullptr`.  The result is the new array and `other` after the
call. -/
def moveConstruct (other : Array T SizeBias) : Array T SizeBias × Array T SizeBias :=
  let a : Array T SizeBias := { pBegin := none, pNext := 0, pEnd := 0 }
  if other.size = 0 then (a, other)
  else
    ({ a with pBegin := other.pBegin, pNext := other.pNext, pEnd := other.pEnd },
      { other with pBegin := none, pNext := 0, pEnd := 0 })

/-- The values `at(0)`, ..., `at(size() - 1)`, in index order. -/
def contents (a : Array T SizeBias) : List (Option T) :=
  (List.range a.size).map fun i => a.at_ (i : Int)

/-- The loop of `operator==`, entered with the loop variable at `index`:
`for (; index < size(); index++) if (at(index) != other[index]) return false; return true;`.
The `size_t` loop variable is converted to the `long long` parameter of `at` and
`operator[]`.  `fuel` bounds the number of tests of the loop condition. -/
def eqLoop [DecidableEq T] (a other : Array T SizeBias) : Nat → Nat → Option Bool
  | 0, _ => none
  | fuel + 1, index =>
    if index < a.size then
      match a.at_ (toLongLong index), other.index (toLongLong index) with
      | some x, some y => if x ≠ y then some false else eqLoop a other fuel (index + 1)
      | _, _ => none
    else some true

/-- Member `operator==(other)`: `false` when the sizes differ, otherwise the loop started at
index 0, whose condition is tested at most `size() + 1` times. -/
def eq [DecidableEq T] (a other : Array T SizeBias) : Option Bool :=
  if other.size ≠ a.size then some false else eqLoop a other (a.size + 1) 0

/-- Copy assignment `operator=(const Array& other)`: nothing is done when `other.size()` is
0; otherwise the array is cleared, a block of `other.size()` slots is created, the range
`[other.pBegin, other.pNext)` is copied into it, and `pNext` and `pEnd` are both set to
`pBegin + other.size()`.  The result is the array and `other`, which is only read. -/
def copyAssign (a other : Array T SizeBias) : Option (Array T SizeBias × Array T SizeBias) :=
  if other.size = 0 then some (a, other)
  else
    let a1 := a.clear
    match copyBlock (CreateNewBlock other.size) 0 other.slots 0 other.pNext with
    | none => none
    | some blk => some ({ a1 with pBegin := some blk, pNext := other.size, pEnd := other.size },
        other)

/-- Move assignment `operator=(Array&& other)`: nothing is done when `other.size()` is 0;
otherwise the array is cleared, the three pointers of `other` are taken over and those of
`other` are reset to `nullptr`.  The result is the array and `other` after the call. -/
def moveAssign (a other : Array T SizeBias) : Array T SizeBias × Array T SizeBias :=
  if other.size = 0 then (a, other)
  else
    let a1 := a.clear
    ({ a1 with pBegin := other.pBegin, pNext := other.pNext, pEnd := other.pEnd },
      { other with pBegin := none, pNext := 0, pEnd := 0 })

/-- List assignment `operator=(std::initializer_list<Type> list)`: nothing is done for an
empty list; otherwise the array is cleared, a block of `list.size()` slots is created, the
range `[list.begin(), list.end())` is copied into it, and `pNext` and `pEnd` are both set to
`pBegin + list.size()`. -/
def listAssign (a : Array T SizeBias) (list : List T) : Option (Array T SizeBias) :=
  if list.length = 0 then some a
  else
    let a1 := a.clear
    match copyBlock (CreateNewBlock list.length) 0 (list.map some) 0 list.length with
    | none => none
    | some blk => some { a1 with pBegin := some blk, pNext := list.length, pEnd := list.length }

/-- Outcome of a call made while the allocator may run out of memory: the call returned and
left the array `a`; or `CreateNewBlock` threw `std::bad_alloc`, which no member catches, and
the exception reached the caller with the array left as `a`; or the behaviour is undefined. -/
inductive Outcome (T : Type) (SizeBias : Nat) where
  | returned (a : Array T SizeBias)
  | badAlloc (a : Array T SizeBias)
  | undefined
deriving DecidableEq

/-- Member `extend(size)` under an allocator that grants a block of `count` slots exactly
when `allocOk count` holds: the allocation is the first statement after the computation of
the new capacity. -/
def tryExtend (allocOk : Nat → Bool) (a : Array T SizeBias) (size : Nat) : Outcome T SizeBias :=
  let newCapacity := a.getNewCapacity size
  if allocOk newCapacity then
    let pBlock : Block T := CreateNewBlock newCapacity
    match moveBlock pBlock 0 a.slots 0 a.pNext with
    | none => .undefined
    | some pBlock1 =>
      let a1 := a.clear
      .returned { a1 with pBegin := some pBlock1, pNext := subSizeT newCapacity size,
                          pEnd := newCapacity }
  else .badAlloc a

/-- The test `if (pNext == pEnd) extend();` under an allocator that may fail. -/
def tryExtendIfFull (allocOk : Nat → Bool) (a : Array T SizeBias) : Outcome T SizeBias :=
  if a.pNext = a.pEnd then tryExtend allocOk a SizeBias else .returned a

/-- Member `pushBack(value)` under an allocator that may fail. -/
def tryPushBack (allocOk : Nat → Bool) (a : Array T SizeBias) (value : Ref T) :
    Outcome T SizeBias :=
  match tryExtendIfFull allocOk a with
  | .undefined => .undefined
  | .badAlloc s => .badAlloc s
  | .returned a1 =>
    match a1.readRef (decide (a.pNext = a.pEnd)) value with
    | none => .undefined
    | some v =>
      match writeSlot a1.slots a1.pNext v with
      | none => .undefined
      | some blk => .returned { a1 with pBegin := some blk, pNext := a1.pNext + 1 }

/-- Member `pushFront(value)` under an allocator that may fail. -/
def tryPushFront (allocOk : Nat → Bool) (a : Array T SizeBias) (value : Ref T) :
    Outcome T SizeBias :=
  match tryExtendIfFull allocOk a with
  | .undefined => .undefined
  | .badAlloc s => .badAlloc s
  | .returned a1 =>
    match moveBlock a1.slots 1 a1.slots 0 a1.pNext with
    | none => .undefined
    | some blk1 =>
      match ({ a1 with pBegin := some blk1 } : Array T SizeBias).readRef
          (decide (a.pNext = a.pEnd)) value with
      | none => .undefined
      | some v =>
        match writeSlot blk1 0 v with
        | none => .undefined
        | some blk2 => .returned { a1 with pBegin := some blk2, pNext := a1.pNext + 1 }

/-- Member `resize(size, value)` under an allocator that may fail: for `size != 0` the array
is cleared first, then the block is requested. -/
def tryResize (allocOk : Nat → Bool) (a : Array T SizeBias) (size : Nat) (value : Ref T) :
    Outcome T SizeBias :=
  if size = 0 then .returned a
  else
    let a1 := a.clear
    if allocOk size then
      match a1.readRef true value with
      | none => .undefined
      | some v =>
        match initializeBlock (CreateNewBlock size) 0 v size with
        | none => .undefined
        | some blk => .returned { a1 with pBegin := some blk, pNext := size, pEnd := size }
    else .badAlloc a1

/-- The outcome that stands for a result of the model in which every allocation succeeds. -/
def Outcome.ofOption : Option (Array T SizeBias) → Outcome T SizeBias
  | none => .undefined
  | some a => .returned a

/-- Outcome of the loop of `occurence` after a bounded number of tests of its condition:
it returned `r`, or it is still iterating, or a read had no defined value. -/
inductive LoopResult where
  | returned (r : Nat)
  | running
  | undefined
deriving DecidableEq

/-- The loop of `occurence`, `while (itr != end()) if (*itr == value) occur++;`, followed by
`return occur;`.  `itr` is the offset of the iterator from `pBegin`; the body never changes
it.  `fuel` is the number of tests of the loop condition that are followed. -/
def occurenceLoop [DecidableEq T] (a : Array T SizeBias) (value : T) (itr : Nat) :
    Nat → Nat → LoopResult
  | 0, _ => .running
  | fuel + 1, occur =>
    if itr ≠ a.pNext then
      match a.deref itr with
      | none => .undefined
      | some x =>
        if x = value then occurenceLoop a value itr fuel ((occur + 1) % 2 ^ 64)
        else occurenceLoop a value itr fuel occur
    else .returned occur

/-- Member `occurence(value)`, followed for `fuel` tests of the loop condition:
`occur = 0; itr = begin();` and the loop. -/
def occurence [DecidableEq T] (a : Array T SizeBias) (value : T) (fuel : Nat) : LoopResult :=
  occurenceLoop a value 0 fuel 0

/-- Member `isValidIndex(index)`:
`return index < 0 ? ((size() + index) < size()) : (index < size());`.  Both comparisons are
made in `size_t`, to which `index` is converted; the sum is taken modulo `2 ^ 64`. -/
def isValidIndex (a : Array T SizeBias) (index : Int) : Bool :=
  if index < 0 then decide ((a.size + toSizeT index) % 2 ^ 64 < a.size)
  else decide (toSizeT index < a.size)

/-- Member `begin()`: `pBegin`, as an offset from `pBegin`. -/
def begin (_a : Array T SizeBias) : Int := 0

/-- Member `end()`: `pNext`, as an offset from `pBegin`. -/
def end_ (a : Array T SizeBias) : Int := (a.pNext : Int)

/-- The class `Array::ReverseIterator`: its pointer `pEnd`, as an offset from the `pBegin`
of the array it runs over. -/
structure ReverseIterator where
  pEnd : Int
deriving DecidableEq

/-- Constructor `ReverseIterator(const Type* pEnd)`: the member is `pEnd - 1`. -/
def ReverseIterator.construct (pEnd : Int) : ReverseIterator := { pEnd := pEnd - 1 }

/-- Member `ReverseIterator::operator++(int)`: `pEnd--;`. -/
def ReverseIterator.increment (it : ReverseIterator) : ReverseIterator :=
  { pEnd := it.pEnd - 1 }

/-- Member `ReverseIterator::operator+=(offset)`: `pEnd += offset;`. -/
def ReverseIterator.addAssign (it : ReverseIterator) (offset : Nat) : ReverseIterator :=
  { pEnd := it.pEnd + (offset : Int) }

/-- Member `ReverseIterator::operator!=(pointer)`: `return (pEnd + 1) != pointer;`. -/
def ReverseIterator.ne (it : ReverseIterator) (pointer : Int) : Bool :=
  decide (it.pEnd + 1 ≠ pointer)

/-- Member `ReverseIterator::operator*()`: the read `*pEnd`, in the block of `a`. -/
def ReverseIterator.deref (it : ReverseIterator) (a : Array T SizeBias) : Option T :=
  a.subscript it.pEnd

/-- The loop `for (ReverseIterator it(a.end()); it != a.begin(); it++) use(*it);` entered
with the iterator at `it`: the values `*it` yields, in the order of the visits.  `fuel`
bounds the number of tests of the loop condition. -/
def reverseTraverse (a : Array T SizeBias) : Nat → ReverseIterator → Option (List (Option T))
  | 0, _ => none
  | fuel + 1, it =>
    if it.ne a.begin then
      match reverseTraverse a fuel it.increment with
      | none => none
      | some values => some (it.deref a :: values)
    else some []

/-- Sample state: the array `[4]` in a full block of one slot. -/
def sampleOne : Array Nat 1 := { pBegin := some [some 4], pNext := 1, pEnd := 1 }

/-- Sample state: the array `[4, 9]` in a block of three slots. -/
def sampleTwo : Array Nat 1 := { pBegin := some [some 4, some 9, none], pNext := 2, pEnd := 3 }

/-- Sample state: the array `[4, 9, 7]` in a full block of three slots. -/
def sampleThree : Array Nat 1 :=
  { pBegin := some [some 4, some 9, some 7], pNext := 3, pEnd := 3 }

/-- Sample state: the array `[1, 2, 3, 4, 5]` in a full block of five slots. -/
def sampleFive : Array Nat 1 :=
  { pBegin := some [some 1, some 2, some 3, some 4, some 5], pNext := 5, pEnd := 5 }

/-- Sample state: the array `[1, 2, 3]` in a block of four slots. -/
def sampleSpare : Array Nat 1 :=
  { pBegin := some [some 1, some 2, some 3, none], pNext := 3, pEnd := 4 }

/-- Sample state: the empty array left by `extend(3)` on `Array()`, a block of three slots
never written. -/
def sampleReserved : Array Nat 1 := { pBegin := some [none, none, none], pNext := 0, pEnd := 3 }

/-- Sample call sequence: `pushBack(1); pushBack(2); popBack(); pushBack(3)`. -/
def sampleOps : List (BackOp Nat) :=
  [BackOp.pushBack 1, BackOp.pushBack 2, BackOp.popBack, BackOp.pushBack 3]

end Array

/-! ## The string of `String.h` -/

/-- The class `String` with `Type = char` (src/Sandbox/String.h): `string` is the block the
data pointer refers to (`none` is `nullptr`) and `length` the stored length.  A character is
its code; the terminator is the code 0. -/
structure String where
  string : Option (Block Nat)
  length : Nat
deriving DecidableEq

namespace String

/-- Member `CreateNewBlock(count)`: `new Type[count]` followed by a `memset` to 0, a block
of `count` characters that are all 0. -/
def CreateNewBlock (count : Nat) : Block Nat := List.replicate count (some 0)

/-- Constructor `String()`: `string` is `nullptr` and `length` is 0. -/
def empty : String := { string := none, length := 0 }

/-- Constructor `String(size_t length)`: a zeroed block of `length + 1` characters. -/
def construct (length : Nat) : String :=
  { string := some (CreateNewBlock (length + 1)), length := length }

/-- Member `size()`: `return length;`. -/
def size (s : String) : Nat := s.length

/-- The characters of the block of `s`; none at all when `string` is `nullptr`. -/
def slots (s : String) : Block Nat := s.string.getD []

/-- The read `string[off]` for an offset `off ≥ 0`. -/
def deref (s : String) (off : Nat) : Option Nat :=
  match s.string with
  | none => none
  | some blk => (blk[off]?).join

/-- The read `string[index]` for a signed index. -/
def subscript (s : String) (index : Int) : Option Nat :=
  if index < 0 then none else s.deref index.toNat

/-- The index processing of `at`:
`if (index < 0) index = static_cast<long long>(length) + index;`. -/
def processIndex (s : String) (index : Int) : Int :=
  if index < 0 then toLongLong s.length + index else index

/-- Member `at(index)` read: the index is processed, then `string[index]` is read. -/
def at_ (s : String) (index : Int) : Option Nat :=
  s.subscript (s.processIndex index)

/-- Member `operator[](index)` read: `return at(index);`. -/
def index (s : String) (index : Int) : Option Nat :=
  s.at_ index

/-- The assignment `s[index] = character` through the reference `operator[]` returns:
undefined outside the block. -/
def assignAt (s : String) (index : Int) (character : Nat) : Option String :=
  let index := s.processIndex index
  if index < 0 then none
  else
    match writeSlot s.slots index.toNat character with
    | none => none
    | some blk => some { s with string := some blk }

/-- Member `clear()`: the block is deleted when there is one, `string` is set to `nullptr`
and `length` to 0. -/
def clear (_s : String) : String := { string := none, length := 0 }

/-- The loop of `GetStrLength`, `while (*pBegining != 0) count++, pBegining++;`, on the
character array `blk`, followed by `return count;`.  `fuel` bounds the number of tests. -/
def GetStrLengthLoop (blk : Block Nat) : Nat → Nat → Option Nat
  | 0, _ => none
  | fuel + 1, count =>
    match (blk[count]?).join with
    | none => none
    | some ch => if ch ≠ 0 then GetStrLengthLoop blk fuel (count + 1) else some count

/-- Function `GetStrLength(pString)`: 0 for `nullptr`, otherwise the number of characters
before the first 0.  The loop tests at most one character more than the array holds. -/
def GetStrLength (pString : Option (Block Nat)) : Option Nat :=
  match pString with
  | none => some 0
  | some blk => GetStrLengthLoop blk (blk.length + 1) 0

/-- Constructor `String(const Type* pString)`: `length = GetStrLength(pString);`, a zeroed
block of `length + 1` characters is created and `length` characters are copied into it. -/
def constructCString (pString : Option (Block Nat)) : Option String :=
  match GetStrLength pString with
  | none => none
  | some length =>
    match copyBlock (CreateNewBlock (length + 1)) 0 (pString.getD []) 0 length with
    | none => none
    | some blk => some { string := some blk, length := length }

/-- Copy constructor `String(const String& str)`: `length` is `str.length`; nothing more is
done when `str.length` is 0 or `str.string` is `nullptr`; otherwise a zeroed block of
`length + 1` characters is created and `length` characters of `str` are copied into it. -/
def copyConstruct (str : String) : Option String :=
  let s : String := { string := none, length := str.length }
  if str.length = 0 ∨ str.string = none then some s
  else
    match copyBlock (CreateNewBlock (s.length + 1)) 0 str.slots 0 s.length with
    | none => none
    | some blk => some { s with string := some blk }

/-- Member `append(character)`: `length++;` a zeroed block of `length + 1` characters is
created; when `string` is not `nullptr` the `length - 1` old characters are moved into it
and the old block is deleted; then `newBlock[length] = character; string = newBlock;`. -/
def append (s : String) (character : Nat) : Option String :=
  let length := s.length + 1
  let newBlock := CreateNewBlock (length + 1)
  let moved :=
    match s.string with
    | some blk => moveBlock newBlock 0 blk 0 (length - 1)
    | none => some newBlock
  match moved with
  | none => none
  | some newBlock1 =>
    match writeSlot newBlock1 length character with
    | none => none
    | some newBlock2 => some { string := some newBlock2, length := length }

/-- The loop of `subString`, entered with the loop variable at `index`:
`for (; index < static_cast<size_t>(endIndex); index++)`
`newBlock[index - startIndex] = string[index];`, followed by `return newBlock;`.
`endIndex` is the converted bound and `startIndex` the converted start index.  `fuel`
bounds the number of tests of the loop condition. -/
def subStringLoop (s : String) (startIndex endIndex : Nat) : Nat → Nat → String → Option String
  | 0, _, _ => none
  | fuel + 1, index, newBlock =>
    if index < endIndex then
      match s.deref index with
      | none => none
      | some ch =>
        match newBlock.assignAt (toLongLong (subSizeT index startIndex)) ch with
        | none => none
        | some newBlock1 => subStringLoop s startIndex endIndex fuel (index + 1) newBlock1
    else some newBlock

/-- Member `subString(startIndex, endIndex)`: a negative index has `length` added to it in
`size_t` arithmetic; the new string is built with `String(endIndex - startIndex)`; the loop
copies the characters.  The loop condition is tested at most
`endIndex - startIndex + 1` times. -/
def subString (s : String) (startIndex endIndex : Int) : Option String :=
  let startIndex :=
    if startIndex < 0 then toLongLong ((s.length + toSizeT startIndex) % 2 ^ 64) else startIndex
  let endIndex :=
    if endIndex < 0 then toLongLong ((s.length + toSizeT endIndex) % 2 ^ 64) else endIndex
  let newBlock := construct (toSizeT (endIndex - startIndex))
  subStringLoop s (toSizeT startIndex) (toSizeT endIndex)
    (toSizeT endIndex - toSizeT startIndex + 1) (toSizeT startIndex) newBlock

/-- The inner loop of `find(String)` for the outer index `index`, entered with the loop
variable at `itr`: `for (; itr < str.length; itr++) if (string[itr] != str[itr - index])`
`{ itr = str.length; candidate = -1; }`; the result is the final `candidate`.  `fuel` bounds
the number of tests of the loop condition. -/
def findInner (s str : String) (index : Nat) : Nat → Nat → Int → Option Int
  | 0, _, _ => none
  | fuel + 1, itr, candidate =>
    if itr < str.length then
      match s.deref itr, str.index (toLongLong (subSizeT itr index)) with
      | some x, some y =>
        if x ≠ y then findInner s str index fuel (str.length + 1) (-1)
        else findInner s str index fuel (itr + 1) candidate
      | _, _ => none
    else some candidate

/-- The outer loop of `find(String)`, entered with the loop variable at `index`, followed
by `return -1;`.  The inner loop starts at `itr = index` with `candidate = index`; it gets
the fuel `str.length + 2`, more than the tests it can make.  `fuel` bounds the number of
tests of the outer loop condition. -/
def findLoop (s str : String) : Nat → Nat → Option Int
  | 0, _ => none
  | fuel + 1, index =>
    if index < s.length then
      match s.deref index, str.index 0 with
      | some x, some y =>
        if x = y then
          match findInner s str index (str.length + 2) index (toLongLong index) with
          | none => none
          | some candidate =>
            if candidate ≠ -1 then some candidate else findLoop s str fuel (index + 1)
        else findLoop s str fuel (index + 1)
      | _, _ => none
    else some (-1)

/-- Member `find(String str)`: the argument is passed by value, so the body works on the
copy the copy constructor makes; `-1` when either length is 0 or `str` is the longer one;
otherwise the outer loop started at index 0, whose condition is tested at most
`length + 1` times. -/
def find (s arg : String) : Option Int :=
  match copyConstruct arg with
  | none => none
  | some str =>
    if s.length = 0 ∨ str.length = 0 ∨ s.length < str.length then some (-1)
    else findLoop s str (s.length + 1) 0

/-- Copy assignment `operator=(const String& str)`: nothing is done when `str.length` is 0
or `str.string` is `nullptr`; otherwise the string is cleared, a zeroed block of
`length + 1` characters is created and `length` characters of `str` are copied into it,
where `length` is the member of the string that is assigned to. -/
def copyAssign (s str : String) : Option String :=
  if str.length = 0 ∨ str.string = none then some s
  else
    let s1 := s.clear
    match copyBlock (CreateNewBlock (s1.length + 1)) 0 str.slots 0 s1.length with
    | none => none
    | some blk => some { s1 with string := some blk }

/-- The loop of `operator==(const String&)`, entered with the loop variable at `itr`:
`for (; itr < length; itr++) if (string[itr] != other.string[itr]) return false;`
followed by `return true;`.  `fuel` bounds the number of tests of the loop condition. -/
def eqLoop (s other : String) : Nat → Nat → Option Bool
  | 0, _ => none
  | fuel + 1, itr =>
    if itr < s.length then
      match s.deref itr, other.deref itr with
      | some x, some y => if x ≠ y then some false else eqLoop s other fuel (itr + 1)
      | _, _ => none
    else some true

/-- Member `operator==(const String& other)`: `false` when the lengths differ, otherwise
the loop started at 0, whose condition is tested at most `length + 1` times. -/
def eq (s other : String) : Option Bool :=
  if s.length ≠ other.length then some false else eqLoop s other (s.length + 1) 0

/-- The layout the constructors and members set up: `string` is `nullptr` and `length` is
0, or the block has `length + 1` characters, all of them written (`CreateNewBlock` zeroes
the block). -/
def WF (s : String) : Prop :=
  (s.string = none ∧ s.length = 0) ∨
    (s.string ≠ none ∧ s.slots.length = s.length + 1 ∧ ∀ x ∈ s.slots, x.isSome = true)

/-- The string `p` occurs in `s` at position `k` as a contiguous substring: the `p.size()`
characters of `s` from `k` on are those of `p`. -/
def occursAt (s p : String) (k : Nat) : Prop :=
  k + p.length ≤ s.length ∧
    ∀ i : Nat, i < p.length → s.at_ ((k + i : Nat) : Int) = p.at_ (i : Int)

instance (s : String) : Decidable s.WF := by
  unfold WF
  infer_instance

instance (s p : String) (k : Nat) : Decidable (s.occursAt p k) := by
  unfold occursAt
  infer_instance

/-- Sample primitive string: the characters `x`, `a`, `c` and the terminator. -/
def cstrXac : Option (Block Nat) := some [some 120, some 97, some 99, some 0]

/-- Sample primitive string: the characters `a`, `b` and the terminator. -/
def cstrAb : Option (Block Nat) := some [some 97, some 98, some 0]

/-- Sample state: the string `String("xac")`. -/
def sampleXac : String := { string := some [some 120, some 97, some 99, some 0], length := 3 }

/-- Sample primitive string: the characters `x`, `a`, `a`, `b` and the terminator. -/
def cstrXaab : Option (Block Nat) := some [some 120, some 97, some 97, some 98, some 0]

/-- Sample state: the string `String("xaab")`. -/
def sampleXaab : String :=
  { string := some [some 120, some 97, some 97, some 98, some 0], length := 4 }

/-- Sample state: the string `String("ab")`. -/
def sampleAb : String := { string := some [some 97, some 98, some 0], length := 2 }

end String

/-! ## The map of `BinaryHashMap.h` and the search of `FastMap.cpp` -/

/-- The struct `BinaryHashMap::Container`: a key, its value and the hash of the key, a
`UI64`. -/
structure Container (Key Value : Type) where
  mKey : Key
  mValue : Value
  mHash : Nat

/-- The class `BinaryHashMap<Key, Value, std::less<UI64>>`: the vector `mEntries`. -/
structure BinaryHashMap (Key Value : Type) where
  mEntries : List (Container Key Value)

namespace BinaryHashMap

variable {Key Value : Type}

/-- Constructor `BinaryHashMap()`: no entry. -/
def empty : BinaryHashMap Key Value := { mEntries := [] }

/-- The loop of `FindContainer`, `while (size) { counter = size / 2; pData = pBegin + counter;`
`if (Compare::operator()(pData->mHash, hash)) { pBegin = ++pData; size -= counter + 1; }`
`else size = counter; }`, followed by `return pBegin;`.  Pointers are offsets from
`mEntries.data()`; the read `pData->mHash` is undefined outside the vector.  `fuel` bounds
the number of tests of the loop condition. -/
def FindContainerLoop (m : BinaryHashMap Key Value) (hash : Nat) : Nat → Nat → Nat → Option Nat
  | 0, _, _ => none
  | fuel + 1, pBegin, size =>
    if size ≠ 0 then
      let counter := size / 2
      let pData := pBegin + counter
      match m.mEntries[pData]? with
      | none => none
      | some c =>
        if c.mHash < hash then FindContainerLoop m hash fuel (pData + 1) (size - (counter + 1))
        else FindContainerLoop m hash fuel pBegin counter
    else some pBegin

/-- Member `FindContainer(hash, size)`: the loop entered with `pBegin = mEntries.data()`.
Every iteration makes `size` smaller, so the condition is tested at most `size + 1` times. -/
def FindContainer (m : BinaryHashMap Key Value) (hash size : Nat) : Option Nat :=
  FindContainerLoop m hash (size + 1) 0 size

/-- The call `std::sort(mEntries.begin(), mEntries.end(), KeyCompare())`: the entries in
ascending order of `mHash`. -/
def sortEntries (entries : List (Container Key Value)) : List (Container Key Value) :=
  entries.insertionSort fun left right => left.mHash ≤ right.mHash

/-- Member `Get(key)`, followed through `fuel` calls of itself: `hashOf` is `XXH64` on the
bytes of the key and `defaultValue` is `Value()`.  `pContainer` is the position
`FindContainer` returns; it is `nullptr` exactly when the vector has no entry
(`mEntries.data()` of a vector that never held one).  When `pContainer` is not `nullptr`,
`pContainer->mHash` is read, which is undefined outside the vector.  The result is the
position of the entry whose `mValue` is returned by reference, and the map after the call. -/
def GetFuel (hashOf : Key → Nat) (defaultValue : Value) :
    Nat → BinaryHashMap Key Value → Key → Option (Nat × BinaryHashMap Key Value)
  | 0, _, _ => none
  | fuel + 1, m, key =>
    let hash := hashOf key
    match m.FindContainer hash m.mEntries.length with
    | none => none
    | some pContainer =>
      let inserted : BinaryHashMap Key Value :=
        { mEntries := sortEntries (m.mEntries ++ [{ mKey := key, mValue := defaultValue,
                                                    mHash := hash }]) }
      if m.mEntries.length = 0 then GetFuel hashOf defaultValue fuel inserted key
      else
        match m.mEntries[pContainer]? with
        | none => none
        | some c =>
          if c.mHash = hash then some (pContainer, m)
          else GetFuel hashOf defaultValue fuel inserted key

/-- Member `Get(key)`: the call and the one call of itself it makes after an insertion,
which finds the entry. -/
def Get (hashOf : Key → Nat) (defaultValue : Value) (m : BinaryHashMap Key Value) (key : Key) :
    Option (Nat × BinaryHashMap Key Value) :=
  GetFuel hashOf defaultValue 2 m key

/-- The value read through the reference `Get(key)` returns, and the map after the call. -/
def GetValue (hashOf : Key → Nat) (defaultValue : Value) (m : BinaryHashMap Key Value)
    (key : Key) : Option (Value × BinaryHashMap Key Value) :=
  match Get hashOf defaultValue m key with
  | none => none
  | some (p, m1) =>
    match m1.mEntries[p]? with
    | none => none
    | some c => some (c.mValue, m1)

/-- Member `Insert(key, data)`: `Get(key) = data;`. -/
def Insert (hashOf : Key → Nat) (defaultValue : Value) (m : BinaryHashMap Key Value)
    (key : Key) (data : Value) : Option (BinaryHashMap Key Value) :=
  match Get hashOf defaultValue m key with
  | none => none
  | some (p, m1) =>
    match m1.mEntries[p]? with
    | none => none
    | some c => some { mEntries := m1.mEntries.set p { c with mValue := data } }

/-- The hashes of the entries, in vector order. -/
def hashes (m : BinaryHashMap Key Value) : List Nat := m.mEntries.map fun c => c.mHash

/-- The entry vector is sorted ascending by hash: every hash is at most each hash stored
after it. -/
def SortedByHash (m : BinaryHashMap Key Value) : Prop :=
  m.hashes.Pairwise fun x y => x ≤ y

instance (m : BinaryHashMap Key Value) : Decidable m.SortedByHash := by
  unfold SortedByHash
  infer_instance

/-- Sample state: the map with the one entry of key 1, value 10 and hash 1. -/
def sampleMap : BinaryHashMap Nat Nat := { mEntries := [{ mKey := 1, mValue := 10, mHash := 1 }] }

/-- Sample state: a map with entries of hashes 2, 5, 5 and 9. -/
def sampleSorted : BinaryHashMap Nat Nat :=
  { mEntries := [{ mKey := 2, mValue := 0, mHash := 2 }, { mKey := 5, mValue := 0, mHash := 5 },
                 { mKey := 6, mValue := 0, mHash := 5 }, { mKey := 9, mValue := 0, mHash := 9 }] }

end BinaryHashMap

/-- The loop of `FindIndex`, `while (counter--) { ... pos += CHUNK_SIZE; }`, followed by
`return -1;`: the four elements at `pos` are read and compared with `hash` lane by lane, and
the index of the first lane that is equal is returned. -/
def FindIndexLoop (data : List Nat) (hash : Nat) : Nat → Nat → Option Int
  | 0, _ => some (-1)
  | counter + 1, pos =>
    match data[pos + 0]?, data[pos + 1]?, data[pos + 2]?, data[pos + 3]? with
    | some b0, some b1, some b2, some b3 =>
      if b0 = hash then some (toLongLong (pos + 0))
      else if b1 = hash then some (toLongLong (pos + 1))
      else if b2 = hash then some (toLongLong (pos + 2))
      else if b3 = hash then some (toLongLong (pos + 3))
      else FindIndexLoop data hash counter (pos + 4)
    | _, _, _, _ => none

/-- Function `FindIndex(hashVector, hash)` of FastMap.cpp, with `CHUNK_SIZE` 4: the vector
is padded with zeros to a multiple of 4 elements, then searched chunk by chunk.  The result
is the value returned and the vector after the call.  The number of chunks is held in an
`int`; the vectors of the model have fewer than `2 ^ 33` elements, so it is the quotient. -/
def FindIndex (hashVector : List Nat) (hash : Nat) : Option Int × List Nat :=
  let count := hashVector.length
  let mod := count % 4
  let hashVector1 := if mod ≠ 0 then hashVector ++ List.replicate (4 - mod) 0 else hashVector
  let count1 := if mod ≠ 0 then count + (4 - mod) else count
  let counter := count1 / 4
  (FindIndexLoop hashVector1 hash counter 0, hashVector1)

/-! ## Blocks: writes and moves -/

section BlockLemmas

variable {T : Type}

theorem writeSlot_eq_some {blk r : Block T} {off : Nat} {v : T} (h : writeSlot blk off v = some r) :
    off < blk.length ∧ r = blk.set off (some v) := by
  unfold writeSlot at h
  split_ifs at h with hlt
  exact ⟨hlt, (Option.some.inj h).symm⟩

theorem writeSlot_of_lt (blk : Block T) {off : Nat} (v : T) (h : off < blk.length) :
    writeSlot blk off v = some (blk.set off (some v)) := by
  simp [writeSlot, h]

theorem moveBlock_of_le (dst src : Block T) {pDst b e : Nat} (h1 : b ≤ e) (h2 : e ≤ src.length)
    (h3 : pDst + (e - b) ≤ dst.length) :
    moveBlock dst pDst src b e
      = some (dst.take pDst ++ (src.drop b).take (e - b) ++ dst.drop (pDst + (e - b))) := by
  simp [moveBlock, h1, h2, h3]

theorem moveBlock_eq_some {dst src r : Block T} {pDst b e : Nat}
    (h : moveBlock dst pDst src b e = some r) :
    b ≤ e ∧ e ≤ src.length ∧ pDst + (e - b) ≤ dst.length ∧
      r = dst.take pDst ++ (src.drop b).take (e - b) ++ dst.drop (pDst + (e - b)) := by
  unfold moveBlock at h
  split_ifs at h with hc
  exact ⟨hc.1, hc.2.1, hc.2.2, (Option.some.inj h).symm⟩

theorem moved_length (dst src : Block T) {pDst b e : Nat} (h1 : b ≤ e) (h2 : e ≤ src.length)
    (h3 : pDst + (e - b) ≤ dst.length) :
    (dst.take pDst ++ (src.drop b).take (e - b) ++ dst.drop (pDst + (e - b))).length
      = dst.length := by
  simp only [List.length_append, List.length_take, List.length_drop]
  omega

theorem moved_getElem? (dst src : Block T) {pDst b e : Nat} (h1 : b ≤ e) (h2 : e ≤ src.length)
    (h3 : pDst + (e - b) ≤ dst.length) (i : Nat) :
    (dst.take pDst ++ (src.drop b).take (e - b) ++ dst.drop (pDst + (e - b)))[i]?
      = if i < pDst then dst[i]? else if i < pDst + (e - b) then src[b + (i - pDst)]?
        else dst[i]? := by
  have hl1 : (dst.take pDst).length = pDst := by
    rw [List.length_take]; omega
  have hl2 : ((src.drop b).take (e - b)).length = e - b := by
    rw [List.length_take, List.length_drop]; omega
  by_cases hi : i < pDst
  · rw [if_pos hi, List.append_assoc, List.getElem?_append_left (by omega)]
    rw [List.getElem?_take_of_lt hi]
  · rw [if_neg hi]
    by_cases hi2 : i < pDst + (e - b)
    · rw [if_pos hi2, List.append_assoc, List.getElem?_append_right (by omega), hl1,
        List.getElem?_append_left (by omega), List.getElem?_take_of_lt (by omega),
        List.getElem?_drop]
    · rw [if_neg hi2, List.getElem?_append_right (by simp only [List.length_append]; omega)]
      simp only [List.length_append, hl1, hl2, List.getElem?_drop]
      congr 1
      omega

theorem copyBlock_of_le (dst src : Block T) {pDst b e : Nat} (h1 : b ≤ e) (h2 : e ≤ src.length)
    (h3 : pDst + (e - b) ≤ dst.length) :
    copyBlock dst pDst src b e
      = some (dst.take pDst ++ (src.drop b).take (e - b) ++ dst.drop (pDst + (e - b))) := by
  simp [copyBlock, h1, h2, h3]

theorem copyBlock_fresh (src : Block T) (n : Nat) (h : n ≤ src.length) :
    copyBlock (CreateNewBlock n) 0 src 0 n = some (src.take n) := by
  rw [copyBlock_of_le _ _ (Nat.zero_le n) h (by simp [CreateNewBlock])]
  simp [CreateNewBlock]

theorem moved_all_defined (dst src : Block T) (p b n q : Nat)
    (hd : ∀ x ∈ dst, x.isSome = true) (hs : ∀ x ∈ src, x.isSome = true) :
    ∀ x ∈ dst.take p ++ (src.drop b).take n ++ dst.drop q, x.isSome = true := by
  intro x hx
  rcases List.mem_append.mp hx with h | h
  · rcases List.mem_append.mp h with h1 | h1
    · exact hd x (List.mem_of_mem_take h1)
    · exact hs x (List.mem_of_mem_drop (List.mem_of_mem_take h1))
  · exact hd x (List.mem_of_mem_drop h)

theorem set_all_defined (blk : Block T) (i : Nat) (c : T)
    (h : ∀ x ∈ blk, x.isSome = true) : ∀ x ∈ blk.set i (some c), x.isSome = true := by
  intro x hx
  rcases List.mem_or_eq_of_mem_set hx with h1 | h1
  · exact h x h1
  · rw [h1]; rfl

theorem toLongLong_of_lt (n : Nat) (h : n < 2 ^ 63) : toLongLong n = (n : Int) := by
  unfold toLongLong
  split_ifs <;> omega

end BlockLemmas

/-! ## The operations of `Array` on well-formed states -/

namespace Array
variable {T : Type} {SizeBias : Nat}

theorem deref_eq_slots (a : Array T SizeBias) (i : Nat) : a.deref i = (a.slots[i]?).join := by
  unfold deref slots
  cases a.pBegin <;> simp

theorem processIndex_nonneg (a : Array T SizeBias) (i : Int) (h : 0 ≤ i) : a.processIndex i = i := by
  unfold processIndex
  simp [not_lt.mpr h]

theorem at_natCast (a : Array T SizeBias) (i : Nat) : a.at_ (i : Int) = (a.slots[i]?).join := by
  unfold at_ subscript
  rw [processIndex_nonneg a i (Int.ofNat_nonneg i)]
  simp [deref_eq_slots]

theorem processIndex_neg (a : Array T SizeBias) (k : Nat) (h1 : 1 ≤ k) (h2 : k ≤ a.size)
    (hs : a.size < 2 ^ 63) : a.processIndex (-(k : Int)) = ((a.size - k : Nat) : Int) := by
  unfold processIndex toLongLong toSizeT
  have hneg : (-(k : Int)) < 0 := by omega
  simp only [hneg, if_true]
  split_ifs <;> omega


theorem getNewCapacity_of_lt (a : Array T SizeBias) (n : Nat) (hcap : a.pEnd + n < 2 ^ 64) :
    a.getNewCapacity n = a.pEnd + n := by
  unfold getNewCapacity capacity
  omega

theorem subSizeT_getNewCapacity (a : Array T SizeBias) (n : Nat) :
    subSizeT (a.getNewCapacity n) n = a.pEnd % 2 ^ 64 := by
  unfold subSizeT getNewCapacity capacity
  omega

theorem extend_eq_of_fit (a : Array T SizeBias) (hwf : a.WF) (n : Nat)
    (hfit : a.pNext ≤ a.getNewCapacity n) :
    a.extend n = some { pBegin := some (a.slots.take a.pNext
        ++ List.replicate (a.getNewCapacity n - a.pNext) none), pNext := a.pEnd % 2 ^ 64,
                        pEnd := a.getNewCapacity n } := by
  obtain ⟨h1, h2⟩ := hwf
  have hc : 0 ≤ a.pNext ∧ a.pNext ≤ a.slots.length ∧
      0 + (a.pNext - 0) ≤ (CreateNewBlock (a.getNewCapacity n) : Block T).length := by
    simp [CreateNewBlock]
    omega
  unfold extend moveBlock
  simp only [hc, and_self, if_true, subSizeT_getNewCapacity]
  simp [CreateNewBlock, clear]

theorem extend_eq (a : Array T SizeBias) (hwf : a.WF) (n : Nat) (hcap : a.pEnd + n < 2 ^ 64) :
    a.extend n = some { pBegin := some (a.slots.take a.pNext
        ++ List.replicate (a.pEnd + n - a.pNext) none), pNext := a.pEnd, pEnd := a.pEnd + n } := by
  have hg := getNewCapacity_of_lt a n hcap
  have hfit : a.pNext ≤ a.getNewCapacity n := by have := hwf.1; omega
  rw [extend_eq_of_fit a hwf n hfit, hg, Nat.mod_eq_of_lt (by omega)]


theorem slots_mk (blk : Block T) (n e : Nat) :
    ({ pBegin := some blk, pNext := n, pEnd := e } : Array T SizeBias).slots = blk := rfl

theorem extendIfFull_spec (hB : 1 ≤ SizeBias) (a : Array T SizeBias) (hwf : a.WF)
    (hcap : a.pEnd + SizeBias < 2 ^ 64) :
    ∃ a1, a.extendIfFull = some a1 ∧ a1.WF ∧ a1.pNext = a.pNext ∧ a1.pNext < a1.pEnd ∧
      a1.pEnd = (if a.pNext = a.pEnd then a.pEnd + SizeBias else a.pEnd) ∧
      ∀ i, i < a.pNext → a1.slots[i]? = a.slots[i]? := by
  unfold extendIfFull
  by_cases hfull : a.pNext = a.pEnd
  · rw [if_pos hfull, extend_eq a hwf SizeBias hcap]
    refine ⟨_, rfl, ?_, ?_, ?_, ?_, ?_⟩
    · obtain ⟨h1, h2⟩ := hwf
      constructor
      · simp
      · simp only [slots_mk, List.length_append, List.length_take, List.length_replicate]
        omega
    · exact hfull.symm
    · simp only [hfull]; omega
    · simp [hfull]
    · intro i hi
      simp only [slots_mk]
      rw [List.getElem?_append_left (by
        rw [List.length_take]; have := hwf.2; have := hwf.1; omega)]
      exact List.getElem?_take_of_lt hi
  · rw [if_neg hfull]
    refine ⟨a, rfl, hwf, rfl, ?_, ?_, ?_⟩
    · have := hwf.1; omega
    · simp [hfull]
    · intro i _; rfl

theorem pushBack_spec (hB : 1 ≤ SizeBias) (a : Array T SizeBias) (hwf : a.WF)
    (hcap : a.pEnd + SizeBias < 2 ^ 64) (v : T) :
    ∃ a1, a.pushBack (.value v) = some a1 ∧ a1.WF ∧ a1.size = a.size + 1 ∧
      a1.capacity = (if a.size = a.capacity then a.capacity + SizeBias else a.capacity) ∧
      (∀ i : Nat, i < a.size → a1.at_ (i : Int) = a.at_ (i : Int)) ∧
      a1.at_ (a.size : Int) = some v := by
  obtain ⟨a1, he, hwf1, hn, hlt, hcap, hfr⟩ := extendIfFull_spec hB a hwf hcap
  have hlen : a1.pNext < a1.slots.length := by rw [hwf1.2]; exact hlt
  unfold pushBack
  rw [he]
  simp only [readRef, writeSlot_of_lt a1.slots v hlen]
  refine ⟨_, rfl, ?_, ?_, ?_, ?_, ?_⟩
  · constructor
    · show a1.pNext + 1 ≤ a1.pEnd
      omega
    · show (a1.slots.set a1.pNext (some v)).length = a1.pEnd
      rw [List.length_set]; exact hwf1.2
  · show a1.pNext + 1 = a.pNext + 1
    rw [hn]
  · exact hcap
  · intro i hi
    rw [at_natCast, at_natCast]
    show ((a1.slots.set a1.pNext (some v))[i]?).join = _
    have hne : a1.pNext ≠ i := by
      have : i < a.pNext := hi
      omega
    rw [List.getElem?_set_ne hne, hfr i hi]
  · rw [at_natCast]
    show ((a1.slots.set a1.pNext (some v))[a.pNext]?).join = _
    rw [← hn, List.getElem?_set_self hlen]
    rfl

theorem at_natCast_deref (a : Array T SizeBias) (i : Nat) : a.at_ (i : Int) = a.deref i := by
  rw [at_natCast, deref_eq_slots]

theorem at_zero (a : Array T SizeBias) : a.at_ 0 = (a.slots[0]?).join := by
  have h0 := at_natCast a 0
  simpa using h0

theorem pushFront_spec (hB : 1 ≤ SizeBias) (a : Array T SizeBias) (hwf : a.WF)
    (hcap : a.pEnd + SizeBias < 2 ^ 64) (v : T) :
    ∃ a1, a.pushFront (.value v) = some a1 ∧ a1.WF ∧ a1.size = a.size + 1 ∧
      a1.capacity = (if a.size = a.capacity then a.capacity + SizeBias else a.capacity) ∧
      a1.at_ 0 = some v ∧
      ∀ i : Nat, i < a.size → a1.at_ ((i + 1 : Nat) : Int) = a.at_ (i : Int) := by
  obtain ⟨a1, he, hwf1, hn, hlt, hcap, hfr⟩ := extendIfFull_spec hB a hwf hcap
  have hlen : a1.pNext < a1.slots.length := by rw [hwf1.2]; exact hlt
  have c1 : 0 ≤ a1.pNext := Nat.zero_le _
  have c2 : a1.pNext ≤ a1.slots.length := by omega
  have c3 : 1 + (a1.pNext - 0) ≤ a1.slots.length := by omega
  have hpos : 0 < (a1.slots.take 1 ++ (a1.slots.drop 0).take (a1.pNext - 0)
      ++ a1.slots.drop (1 + (a1.pNext - 0))).length := by
    rw [moved_length a1.slots a1.slots c1 c2 c3]; omega
  unfold pushFront
  rw [he]
  simp only [moveBlock_of_le a1.slots a1.slots c1 c2 c3, readRef, writeSlot_of_lt _ v hpos]
  refine ⟨_, rfl, ?_, ?_, ?_, ?_, ?_⟩
  · constructor
    · show a1.pNext + 1 ≤ a1.pEnd
      omega
    · simp only [slots_mk]
      rw [List.length_set, moved_length a1.slots a1.slots c1 c2 c3]
      exact hwf1.2
  · show a1.pNext + 1 = a.pNext + 1
    rw [hn]
  · exact hcap
  · rw [at_zero, slots_mk, List.getElem?_set_self hpos]
    rfl
  · intro i hi
    have hi1 : i < a1.pNext := by rw [hn]; exact hi
    rw [at_natCast, at_natCast, slots_mk, List.getElem?_set_ne (Nat.succ_ne_zero i).symm,
      moved_getElem? a1.slots a1.slots c1 c2 c3, if_neg (by omega), if_pos (by omega),
      ← hfr i hi]
    congr 2
    omega

theorem popFront_spec (a : Array T SizeBias) (hwf : a.WF) (hne : a.size ≠ 0) :
    ∃ a1, a.popFront = some (a.at_ 0, a1) ∧ a1.WF ∧ a1.size = a.size - 1 ∧
      a1.capacity = a.capacity ∧
      ∀ i : Nat, i < a.size - 1 → a1.at_ (i : Int) = a.at_ ((i + 1 : Nat) : Int) := by
  have hpos : 1 ≤ a.pNext := Nat.one_le_iff_ne_zero.mpr hne
  have c2 : a.pNext ≤ a.slots.length := by rw [hwf.2]; exact hwf.1
  have c3 : 0 + (a.pNext - 1) ≤ a.slots.length := by omega
  have h0 : a.deref 0 = a.at_ 0 := by rw [at_zero, deref_eq_slots]
  unfold popFront
  simp only [moveBlock_of_le a.slots a.slots hpos c2 c3, h0]
  refine ⟨_, rfl, ?_, ?_, ?_, ?_⟩
  · constructor
    · show a.pNext - 1 ≤ a.pEnd
      have := hwf.1; omega
    · simp only [slots_mk]
      rw [moved_length a.slots a.slots hpos c2 c3]
      exact hwf.2
  · rfl
  · rfl
  · intro i hi
    have hi1 : i < a.pNext - 1 := hi
    rw [at_natCast, at_natCast, slots_mk, moved_getElem? a.slots a.slots hpos c2 c3,
      if_neg (by omega), if_pos (by omega)]
    congr 2
    omega

theorem remove_spec (a : Array T SizeBias) (hwf : a.WF) (index : Int) (k : Nat)
    (hk : a.processIndex index = (k : Int)) (hlt : k < a.size) :
    ∃ a1, a.remove index = some a1 ∧ a1.WF ∧ a1.size = a.size - 1 ∧
      a1.capacity = a.capacity ∧
      (∀ j : Nat, j < k → a1.at_ (j : Int) = a.at_ (j : Int)) ∧
      ∀ j : Nat, k ≤ j → j < a.size - 1 → a1.at_ (j : Int) = a.at_ ((j + 1 : Nat) : Int) := by
  have hlt1 : k < a.pNext := hlt
  have c1 : k + 1 ≤ a.pNext := hlt1
  have c2 : a.pNext ≤ a.slots.length := by rw [hwf.2]; exact hwf.1
  have c3 : k + (a.pNext - (k + 1)) ≤ a.slots.length := by omega
  unfold remove
  simp only [hk, Int.toNat_ofNat, not_lt.mpr (Int.ofNat_nonneg k), if_false,
    moveBlock_of_le a.slots a.slots c1 c2 c3]
  refine ⟨_, rfl, ?_, ?_, ?_, ?_, ?_⟩
  · constructor
    · show a.pNext - 1 ≤ a.pEnd
      have := hwf.1; omega
    · simp only [slots_mk]
      rw [moved_length a.slots a.slots c1 c2 c3]
      exact hwf.2
  · rfl
  · rfl
  · intro j hj
    rw [at_natCast, at_natCast, slots_mk, moved_getElem? a.slots a.slots c1 c2 c3, if_pos hj]
  · intro j hj1 hj2
    have hj3 : j < a.pNext - 1 := hj2
    rw [at_natCast, at_natCast, slots_mk, moved_getElem? a.slots a.slots c1 c2 c3,
      if_neg (by omega), if_pos (by omega)]
    congr 2
    omega

theorem popBack_of_ne (a : Array T SizeBias) (hne : a.size ≠ 0) :
    a.popBack = some (a.deref a.size, { a with pNext := a.pNext - 1 }) := by
  have h : a.pNext ≠ 0 := hne
  simp [popBack, h, size]

theorem processIndex_eq (a : Array T SizeBias) (hs : a.size < 2 ^ 63) (index : Int) (k : Nat)
    (hk : (k : Int) = if 0 ≤ index then index else (a.size : Int) + index) (hlt : k < a.size) :
    a.processIndex index = (k : Int) := by
  unfold processIndex toLongLong toSizeT
  split_ifs at hk ⊢ <;> omega

theorem findLoop_spec [DecidableEq T] (a : Array T SizeBias) (v : T)
    (hinit : ∀ i : Nat, i < a.size → (a.at_ (i : Int)).isSome) :
    ∀ (fuel index : Nat), index ≤ a.size → a.size < index + fuel →
      ∃ r, a.findLoop v fuel index = some r ∧
        ((index ≤ r ∧ r < a.size ∧ a.at_ (r : Int) = some v ∧
            ∀ j : Nat, index ≤ j → j < r → a.at_ (j : Int) ≠ some v) ∨
          (r = 2 ^ 64 - 1 ∧ ∀ j : Nat, index ≤ j → j < a.size → a.at_ (j : Int) ≠ some v)) := by
  intro fuel
  induction fuel with
  | zero =>
    intro index h1 h2
    omega
  | succ f ih =>
    intro index h1 h2
    by_cases hlt : index < a.size
    · obtain ⟨x, hx⟩ := Option.isSome_iff_exists.mp (hinit index hlt)
      have hd : a.deref index = some x := by rw [← at_natCast_deref, hx]
      by_cases hxv : x = v
      · refine ⟨index, ?_, Or.inl ⟨le_refl _, hlt, ?_, ?_⟩⟩
        · simp [findLoop, hlt, hd, hxv]
        · rw [hx, hxv]
        · intro j hj1 hj2
          omega
      · obtain ⟨r, hr, hcase⟩ := ih (index + 1) hlt (by omega)
        have hidx : a.at_ (index : Int) ≠ some v := by
          rw [hx]
          intro h
          exact hxv (Option.some.inj h)
        refine ⟨r, ?_, ?_⟩
        · simp [findLoop, hlt, hd, hxv, hr]
        · rcases hcase with ⟨c1, c2, c3, c4⟩ | ⟨c1, c2⟩
          · refine Or.inl ⟨by omega, c2, c3, fun j hj1 hj2 => ?_⟩
            by_cases hj : j = index
            · rw [hj]; exact hidx
            · exact c4 j (by omega) hj2
          · refine Or.inr ⟨c1, fun j hj1 hj2 => ?_⟩
            by_cases hj : j = index
            · rw [hj]; exact hidx
            · exact c2 j (by omega) hj2
    · refine ⟨2 ^ 64 - 1, ?_, Or.inr ⟨rfl, fun j hj1 hj2 => ?_⟩⟩
      · simp [findLoop, hlt]
      · omega

theorem runBack_append (ops1 ops2 : List (BackOp T)) : ∀ a : Array T SizeBias,
    a.runBack (ops1 ++ ops2) = (a.runBack ops1).bind fun b => b.runBack ops2 := by
  induction ops1 with
  | nil => intro a; rfl
  | cons op ops ih =>
    intro a
    simp only [List.cons_append, runBack]
    cases a.stepBack op with
    | none => rfl
    | some a1 => exact ih a1

theorem countPushBack_append (ops1 ops2 : List (BackOp T)) :
    countPushBack (ops1 ++ ops2) = countPushBack ops1 + countPushBack ops2 := by
  induction ops1 with
  | nil => simp [countPushBack]
  | cons op ops ih =>
    cases op with
    | pushBack v =>
      show countPushBack (ops ++ ops2) + 1 = countPushBack ops + 1 + countPushBack ops2
      rw [ih]; omega
    | popBack => exact ih

theorem countPopBack_append (ops1 ops2 : List (BackOp T)) :
    countPopBack (ops1 ++ ops2) = countPopBack ops1 + countPopBack ops2 := by
  induction ops1 with
  | nil => simp [countPopBack]
  | cons op ops ih =>
    cases op with
    | pushBack v => exact ih
    | popBack =>
      show countPopBack (ops ++ ops2) + 1 = countPopBack ops + 1 + countPopBack ops2
      rw [ih]; omega

theorem empty_WF : (Array.empty : Array T SizeBias).WF := ⟨le_refl _, rfl⟩

theorem runBack_spec (hB : 1 ≤ SizeBias) (ops : List (BackOp T))
    (hcap : countPushBack ops * SizeBias < 2 ^ 64)
    (hvalid : ∀ (pre post : List (BackOp T)) (a : Array T SizeBias),
      ops = pre ++ BackOp.popBack :: post →
      (Array.empty : Array T SizeBias).runBack pre = some a → a.size ≠ 0) :
    ∃ a, (Array.empty : Array T SizeBias).runBack ops = some a ∧ a.WF ∧
      a.size + countPopBack ops = countPushBack ops ∧
      a.pEnd ≤ countPushBack ops * SizeBias := by
  induction ops using List.reverseRecOn with
  | nil => exact ⟨_, rfl, empty_WF, rfl, Nat.zero_le _⟩
  | append_singleton pre op ih =>
    have hmono : countPushBack pre * SizeBias ≤ countPushBack (pre ++ [op]) * SizeBias := by
      rw [countPushBack_append]
      exact Nat.mul_le_mul_right _ (Nat.le_add_right _ _)
    obtain ⟨a, hrun, hwf, hsize, hbound⟩ := ih (by omega) (fun pre1 post a h hr =>
      hvalid pre1 (post ++ [op]) a (by rw [h]; simp) hr)
    rw [countPushBack_append, countPopBack_append] at *
    rw [runBack_append, hrun]
    cases op with
    | pushBack v =>
      have hstep : (countPushBack pre + countPushBack [BackOp.pushBack v]) * SizeBias
          = countPushBack pre * SizeBias + SizeBias := by
        simp only [countPushBack]
        rw [Nat.add_mul]
        omega
      obtain ⟨a1, h1, h2, h3, h4, _⟩ := pushBack_spec hB a hwf (by omega) v
      have h4' : a1.pEnd ≤ a.pEnd + SizeBias := by
        have : a1.pEnd = (if a.size = a.capacity then a.capacity + SizeBias else a.capacity) := h4
        have hc : a.capacity = a.pEnd := rfl
        split_ifs at this <;> omega
      refine ⟨a1, ?_, h2, ?_, ?_⟩
      · simp [runBack, stepBack, h1]
      · simp only [countPopBack, countPushBack]
        omega
      · omega
    | popBack =>
      have hne : a.size ≠ 0 := hvalid pre [] a rfl hrun
      refine ⟨{ a with pNext := a.pNext - 1 }, ?_, ?_, ?_, ?_⟩
      · simp [runBack, stepBack, popBack_of_ne a hne]
      · exact ⟨by have := hwf.1; show a.pNext - 1 ≤ a.pEnd; omega, hwf.2⟩
      · simp only [countPopBack, countPushBack]
        have h0 : a.pNext ≠ 0 := hne
        show a.pNext - 1 + _ = _
        have : a.pNext + countPopBack pre = countPushBack pre := hsize
        omega
      · show a.pEnd ≤ _
        simp only [countPushBack] at *
        omega

theorem empty_HasElems : (Array.empty : Array T SizeBias).HasElems [] :=
  ⟨empty_WF, rfl, fun i hi => absurd hi (Nat.not_lt_zero i)⟩

theorem pushFront_HasElems (hB : 1 ≤ SizeBias) (a : Array T SizeBias) (xs : List T)
    (h : a.HasElems xs) (hcap : a.pEnd + SizeBias < 2 ^ 64) (v : T) :
    ∃ a1, a.pushFront (.value v) = some a1 ∧ a1.pEnd ≤ a.pEnd + SizeBias ∧
      a1.HasElems (v :: xs) := by
  obtain ⟨hwf, hsz, hel⟩ := h
  obtain ⟨a1, h1, h2, h3, h4, h5, h6⟩ := pushFront_spec hB a hwf hcap v
  have h4' : a1.pEnd ≤ a.pEnd + SizeBias := by
    have : a1.pEnd = (if a.size = a.capacity then a.capacity + SizeBias else a.capacity) := h4
    have hc : a.capacity = a.pEnd := rfl
    split_ifs at this <;> omega
  refine ⟨a1, h1, h4', h2, ?_, ?_⟩
  · rw [h3, hsz]; rfl
  · intro i hi
    cases i with
    | zero => simpa using h5
    | succ j =>
      rw [h6 j (by omega), hel j (by omega), List.getElem?_cons_succ]

theorem pushFrontAll_HasElems (hB : 1 ≤ SizeBias) (xs : List T) :
    ∀ (a : Array T SizeBias) (ys : List T), a.HasElems ys →
      a.pEnd + xs.length * SizeBias < 2 ^ 64 →
      ∃ a1, a.pushFrontAll xs = some a1 ∧ a1.HasElems (xs.reverse ++ ys) := by
  induction xs with
  | nil => intro a ys h _; exact ⟨a, rfl, h⟩
  | cons x xs ih =>
    intro a ys h hcap
    have hlen : (x :: xs).length * SizeBias = xs.length * SizeBias + SizeBias := by
      rw [List.length_cons, Nat.add_mul]
      omega
    obtain ⟨a1, h1, hb, h2⟩ := pushFront_HasElems hB a ys h (by omega) x
    obtain ⟨a2, h3, h4⟩ := ih a1 (x :: ys) h2 (by omega)
    refine ⟨a2, ?_, ?_⟩
    · simp only [pushFrontAll, h1]
      exact h3
    · simpa using h4

theorem popFront_HasElems (a : Array T SizeBias) (x : T) (xs : List T)
    (h : a.HasElems (x :: xs)) :
    ∃ a1, a.popFront = some (some x, a1) ∧ a1.HasElems xs := by
  obtain ⟨hwf, hsz, hel⟩ := h
  have hsz1 : a.size = xs.length + 1 := hsz
  obtain ⟨a1, h1, h2, h3, _, h5⟩ := popFront_spec a hwf (by omega)
  have h0 : a.at_ 0 = some x := by
    have := hel 0 (by omega)
    simpa using this
  refine ⟨a1, by rw [h1, h0], h2, by omega, ?_⟩
  intro i hi
  rw [h5 i (by omega), hel (i + 1) (by omega), List.getElem?_cons_succ]

theorem popFrontN_HasElems (xs : List T) : ∀ a : Array T SizeBias, a.HasElems xs →
    ∃ a1, a.popFrontN xs.length = some (xs.map some, a1) ∧ a1.HasElems [] := by
  induction xs with
  | nil => intro a h; exact ⟨a, rfl, h⟩
  | cons x xs ih =>
    intro a h
    obtain ⟨a1, h1, h2⟩ := popFront_HasElems a x xs h
    obtain ⟨a2, h3, h4⟩ := ih a1 h2
    refine ⟨a2, ?_, h4⟩
    simp only [List.length_cons, popFrontN, h1, h3, List.map_cons]

theorem pushBack_of_lt (a : Array T SizeBias) (hwf : a.WF) (hlt : a.size < a.capacity) (v : T) :
    a.pushBack (.value v)
      = some { a with pBegin := some (a.slots.set a.pNext (some v)), pNext := a.pNext + 1 } := by
  have h1 : a.pNext < a.pEnd := hlt
  have h2 : a.pNext ≠ a.pEnd := by omega
  have h3 : a.pNext < a.slots.length := by rw [hwf.2]; exact h1
  simp only [pushBack, extendIfFull, if_neg h2, readRef, writeSlot_of_lt a.slots v h3]

theorem constructList_spec (l : List T) (hl : l.length ≠ 0) :
    (constructList l : Option (Array T SizeBias))
      = some { pBegin := some (l.map some), pNext := l.length, pEnd := l.length } := by
  have h := copyBlock_fresh (l.map some) l.length (by simp)
  simp only [List.take_length, List.length_map] at h
  have h2 : (l.map some).take l.length = l.map some := by
    rw [List.take_of_length_le (by simp)]
  unfold constructList
  rw [if_neg hl]
  simp only [h, h2]

theorem copyConstruct_spec (other : Array T SizeBias) (hwf : other.WF) (hne : other.size ≠ 0) :
    other.copyConstruct
      = some ({ pBegin := some (other.slots.take other.pNext), pNext := other.size,
                pEnd := other.size }, other) := by
  have hle : other.pNext ≤ other.slots.length := by rw [hwf.2]; exact hwf.1
  have h := copyBlock_fresh other.slots other.pNext hle
  unfold copyConstruct
  rw [if_neg hne]
  have hs : other.size = other.pNext := rfl
  simp only [hs, h]

theorem constructList_exists (l : List T) :
    ∃ a : Array T SizeBias, constructList l = some a ∧ a.size = l.length ∧
      a.capacity = l.length ∧ ∀ i : Nat, i < l.length → a.at_ (i : Int) = l[i]? := by
  by_cases hl : l.length = 0
  · refine ⟨Array.empty, ?_, ?_, ?_, fun i hi => ?_⟩
    · simp [constructList, hl, Array.empty]
    · rw [hl]; rfl
    · rw [hl]; rfl
    · omega
  · refine ⟨_, constructList_spec l hl, rfl, rfl, fun i hi => ?_⟩
    rw [at_natCast, slots_mk, List.getElem?_map]
    cases l[i]? <;> rfl

theorem moveConstruct_of_size_eq_zero (src : Array T SizeBias) (h : src.size = 0) :
    src.moveConstruct = (Array.empty, src) := by
  simp [moveConstruct, h, Array.empty]

theorem moveConstruct_of_size_ne_zero (src : Array T SizeBias) (h : src.size ≠ 0) :
    src.moveConstruct = (src, Array.empty) := by
  simp [moveConstruct, h, Array.empty]

theorem eqLoop_spec [DecidableEq T] (a b : Array T SizeBias) (hs : a.size < 2 ^ 63)
    (ha : ∀ i : Nat, i < a.size → (a.at_ (i : Int)).isSome)
    (hb : ∀ i : Nat, i < a.size → (b.at_ (i : Int)).isSome) :
    ∀ (fuel index : Nat), index ≤ a.size → a.size < index + fuel →
      ∃ r, a.eqLoop b fuel index = some r ∧
        (r = true ↔ ∀ i : Nat, index ≤ i → i < a.size → a.at_ (i : Int) = b.at_ (i : Int)) := by
  intro fuel
  induction fuel with
  | zero => intro index h1 h2; omega
  | succ f ih =>
    intro index h1 h2
    by_cases hlt : index < a.size
    · obtain ⟨x, hx⟩ := Option.isSome_iff_exists.mp (ha index hlt)
      obtain ⟨y, hy⟩ := Option.isSome_iff_exists.mp (hb index hlt)
      have hc : toLongLong index = (index : Int) := toLongLong_of_lt index (by omega)
      by_cases hxy : x = y
      · obtain ⟨r, hr, hiff⟩ := ih (index + 1) hlt (by omega)
        refine ⟨r, ?_, ?_⟩
        · simp [eqLoop, hlt, hc, Array.index, hx, hy, hxy, hr]
        · rw [hiff]
          constructor
          · intro h i hi1 hi2
            by_cases hi : i = index
            · rw [hi, hx, hy, hxy]
            · exact h i (by omega) hi2
          · intro h i hi1 hi2
            exact h i (by omega) hi2
      · refine ⟨false, ?_, ?_⟩
        · simp [eqLoop, hlt, hc, Array.index, hx, hy, hxy]
        · constructor
          · intro h; cases h
          · intro h
            have := h index (le_refl _) hlt
            rw [hx, hy] at this
            exact absurd (Option.some.inj this) hxy
    · refine ⟨true, ?_, ?_⟩
      · simp [eqLoop, hlt]
      · constructor
        · intro _ i hi1 hi2; omega
        · intro _; rfl

theorem tryExtend_of_ok (allocOk : Nat → Bool) (a : Array T SizeBias) (n : Nat)
    (h : allocOk (a.getNewCapacity n) = true) :
    tryExtend allocOk a n = Outcome.ofOption (a.extend n) := by
  unfold tryExtend extend
  simp only [h, if_true]
  cases moveBlock (CreateNewBlock (a.getNewCapacity n)) 0 a.slots 0 a.pNext <;> rfl

theorem tryResize_of_ok (allocOk : Nat → Bool) (a : Array T SizeBias) (n : Nat) (v : Ref T)
    (h : allocOk n = true) :
    tryResize allocOk a n v = Outcome.ofOption (a.resize n v) := by
  unfold tryResize resize
  by_cases hn : n = 0
  · simp [hn, Outcome.ofOption]
  · simp only [hn, h, if_true, if_false]
    cases hr : a.clear.readRef true v with
    | none => rfl
    | some x =>
      simp only []
      cases initializeBlock (CreateNewBlock n) 0 x n <;> rfl

theorem tryExtend_of_fail (allocOk : Nat → Bool) (a : Array T SizeBias) (n : Nat)
    (h : allocOk (a.getNewCapacity n) = false) :
    tryExtend allocOk a n = Outcome.badAlloc a := by
  simp [tryExtend, h]

theorem occurenceLoop_running [DecidableEq T] (a : Array T SizeBias) (v : T)
    (hne : a.size ≠ 0) (h0 : (a.deref 0).isSome) :
    ∀ fuel occur : Nat, a.occurenceLoop v 0 fuel occur = LoopResult.running := by
  obtain ⟨x, hx⟩ := Option.isSome_iff_exists.mp h0
  have hp : (0 : Nat) ≠ a.pNext := fun h => hne h.symm
  intro fuel
  induction fuel with
  | zero => intro occur; rfl
  | succ f ih =>
    intro occur
    by_cases hxv : x = v
    · simp only [occurenceLoop, hp, ne_eq, not_false_eq_true, if_true, hx, hxv]
      exact ih _
    · simp only [occurenceLoop, hp, ne_eq, not_false_eq_true, if_true, hx, hxv, if_false]
      exact ih _

/-! ### Arguments that refer into the block of the array -/

theorem pushBack_element_of_full (a : Array T SizeBias) (hfull : a.pNext = a.pEnd) (i : Nat) :
    a.pushBack (.element i) = none := by
  unfold pushBack
  cases a.extendIfFull with
  | none => rfl
  | some a1 => simp [readRef, hfull]

theorem pushBack_element_of_ne (a : Array T SizeBias) (hne : a.pNext ≠ a.pEnd) (i : Nat) :
    a.pushBack (.element i) = (a.deref i).bind fun v => a.pushBack (.value v) := by
  unfold pushBack
  simp only [extendIfFull, if_neg hne, readRef, hne, decide_False, Bool.false_eq_true, if_false]
  cases a.deref i <;> rfl

theorem pushFront_element_of_full (a : Array T SizeBias) (hfull : a.pNext = a.pEnd) (i : Nat) :
    a.pushFront (.element i) = none := by
  unfold pushFront
  cases a.extendIfFull with
  | none => rfl
  | some a1 =>
    simp only [readRef, hfull, decide_True, if_true]
    cases moveBlock a1.slots 1 a1.slots 0 a1.pNext <;> rfl

theorem pushFront_element_of_ne (a : Array T SizeBias) (hwf : a.WF) (hne : a.pNext ≠ a.pEnd)
    (i : Nat) :
    a.pushFront (.element i)
      = (if 1 ≤ i ∧ i ≤ a.pNext then a.deref (i - 1) else a.deref i).bind
          fun v => a.pushFront (.value v) := by
  have hlt : a.pNext < a.slots.length := by have := hwf.1; rw [hwf.2]; omega
  have c1 : 0 ≤ a.pNext := Nat.zero_le _
  have c2 : a.pNext ≤ a.slots.length := by omega
  have c3 : 1 + (a.pNext - 0) ≤ a.slots.length := by omega
  have hread : ({ a with pBegin := some (a.slots.take 1 ++ (a.slots.drop 0).take (a.pNext - 0)
      ++ a.slots.drop (1 + (a.pNext - 0))) } : Array T SizeBias).deref i
      = if 1 ≤ i ∧ i ≤ a.pNext then a.deref (i - 1) else a.deref i := by
    rw [deref_eq_slots, deref_eq_slots, deref_eq_slots]
    show ((a.slots.take 1 ++ (a.slots.drop 0).take (a.pNext - 0)
      ++ a.slots.drop (1 + (a.pNext - 0)))[i]?).join = _
    rw [moved_getElem? a.slots a.slots c1 c2 c3]
    have h0 : a.pNext - 0 = a.pNext := Nat.sub_zero _
    by_cases h : 1 ≤ i ∧ i ≤ a.pNext
    · rw [if_neg (by omega), if_pos (by omega), if_pos h]
      congr 2
      omega
    · rw [if_neg h]
      by_cases hi : i < 1
      · rw [if_pos hi]
      · rw [if_neg hi, if_neg (by omega)]
  unfold pushFront
  simp only [extendIfFull, if_neg hne, moveBlock_of_le a.slots a.slots c1 c2 c3, readRef, hne,
    decide_False, Bool.false_eq_true, if_false, hread]
  cases (if 1 ≤ i ∧ i ≤ a.pNext then a.deref (i - 1) else a.deref i) <;> rfl

theorem moveAssign_of_size_ne_zero (a b : Array T SizeBias) (h : b.size ≠ 0) :
    a.moveAssign b = (b, Array.empty) := by
  simp [moveAssign, h, Array.empty, clear]

theorem copyAssign_spec (a b : Array T SizeBias) (hwf : b.WF) (hne : b.size ≠ 0) :
    a.copyAssign b
      = some ({ pBegin := some (b.slots.take b.pNext), pNext := b.size,
                pEnd := b.size }, b) := by
  have hle : b.pNext ≤ b.slots.length := by rw [hwf.2]; exact hwf.1
  have h := copyBlock_fresh b.slots b.pNext hle
  unfold copyAssign
  rw [if_neg hne]
  have hs : b.size = b.pNext := rfl
  simp only [hs, h, clear]

theorem reverseTraverse_spec (a : Array T SizeBias) : ∀ k : Nat,
    reverseTraverse a (k + 1) { pEnd := (k : Int) - 1 }
      = some ((List.range k).reverse.map fun i : Nat => a.at_ (i : Int)) := by
  intro k
  induction k with
  | zero =>
    simp [reverseTraverse, ReverseIterator.ne, begin]
  | succ n ih =>
    have hne : ({ pEnd := ((n + 1 : Nat) : Int) - 1 } : ReverseIterator).ne a.begin = true := by
      simp only [ReverseIterator.ne, begin, decide_eq_true_eq]
      omega
    have hinc : ({ pEnd := ((n + 1 : Nat) : Int) - 1 } : ReverseIterator).increment
        = { pEnd := (n : Int) - 1 } := by
      simp only [ReverseIterator.increment]
      congr 1
      omega
    have hderef : ({ pEnd := ((n + 1 : Nat) : Int) - 1 } : ReverseIterator).deref a
        = a.at_ (n : Int) := by
      have hp : ((n + 1 : Nat) : Int) - 1 = (n : Int) := by omega
      simp only [ReverseIterator.deref, hp, at_, processIndex_nonneg a _ (Int.ofNat_nonneg n)]
    rw [reverseTraverse]
    simp only [hne, if_true, hinc, ih, hderef, List.range_succ, List.reverse_append,
      List.reverse_cons, List.reverse_nil, List.nil_append, List.singleton_append, List.map_cons]

theorem increment_iterate (it : ReverseIterator) (k : Nat) :
    (ReverseIterator.increment^[k] it).pEnd = it.pEnd - (k : Int) := by
  induction k generalizing it with
  | zero => simp
  | succ n ih =>
    rw [Function.iterate_succ_apply, ih]
    simp only [ReverseIterator.increment]
    omega

/-! ## Properties of the specification -/

/-- C1: `popBack()` reads the slot `pNext` points to before the decrement, which is one past
the last element.  After `pushBack(1); pushBack(2); remove(1)` on an empty array the only
element is 1, and `popBack()` returns 2, the value `remove` took out; right after
`pushBack(7)` on an empty array `popBack()` reads outside the block. -/
theorem popBack_reads_past_last :
    ∃ a : Array Nat 1,
      ((Array.empty : Array Nat 1).pushBack (.value 1)).bind
          (fun b => (b.pushBack (.value 2)).bind fun c => c.remove 1) = some a ∧
        a.size = 1 ∧ a.at_ ((a.size - 1 : Nat) : Int) = some 1 ∧
        (a.popBack).map Prod.fst = some (some 2) ∧
        ((Array.empty : Array Nat 1).pushBack (.value 7)).bind
          (fun b => (b.popBack).map Prod.fst) = some none :=
  ⟨{ pBegin := some [some 1, some 2], pNext := 1, pEnd := 2 }, rfl, rfl, rfl, rfl, rfl⟩

/-- C2, as stated, fails: on the full array `[4]` the call `a.pushBack(a[0])` passes a
reference to the element 4, and reads it after `extend()` has destroyed the block that held
it; the call has no defined result. -/
theorem pushBack_own_element_full :
    sampleOne.size = sampleOne.capacity ∧ sampleOne.at_ 0 = some 4 ∧
      sampleOne.pushBack (.element 0) = none := by
  decide

/-- C2, amended: on a well-formed array with `SizeBias ≥ 1` and
`capacity() + SizeBias < 2 ^ 64`, for an argument that holds `v` when the call is made and
that lies outside the block of the array when the array is full, `pushBack` returns,
`size()` grows by one, `at(i)` is unchanged for every `i` below the old size and
`at(old size)` is `v`, whether the block was full or not.  On a full array every argument
that refers to a slot of the array is read after the block is destroyed. -/
theorem pushBack_appends (hB : 1 ≤ SizeBias) (a : Array T SizeBias) (hwf : a.WF)
    (hcap : a.capacity + SizeBias < 2 ^ 64) (r : Ref T) (v : T)
    (hr : a.readRef false r = some v)
    (hout : ∀ i : Nat, r = Ref.element i → a.size < a.capacity) :
    (∃ a1, a.pushBack r = some a1 ∧ a1.size = a.size + 1 ∧
      (∀ i : Nat, i < a.size → a1.at_ (i : Int) = a.at_ (i : Int)) ∧
      a1.at_ (a.size : Int) = some v) ∧
      (a.size = a.capacity → ∀ i : Nat, a.pushBack (.element i) = none) := by
  refine ⟨?_, fun hfull i => pushBack_element_of_full a hfull i⟩
  obtain ⟨a1, h1, _, h3, _, h5, h6⟩ := pushBack_spec hB a hwf hcap v
  refine ⟨a1, ?_, h3, h5, h6⟩
  cases r with
  | value w =>
    have hw : w = v := Option.some.inj hr
    rw [hw]; exact h1
  | element i =>
    have hlt : a.pNext < a.pEnd := hout i rfl
    have hd : a.deref i = some v := by simpa [readRef] using hr
    rw [pushBack_element_of_ne a (by omega) i, hd]
    exact h1

/-- Witness of C2 on a full array: `pushBack(9)` on `[4]` has to grow the block. -/
theorem pushBack_appends_witness :
    (∃ a1, sampleOne.pushBack (.value 9) = some a1 ∧ a1.size = sampleOne.size + 1 ∧
      (∀ i : Nat, i < sampleOne.size → a1.at_ (i : Int) = sampleOne.at_ (i : Int)) ∧
      a1.at_ (sampleOne.size : Int) = some 9) ∧
      (sampleOne.size = sampleOne.capacity →
        ∀ i : Nat, sampleOne.pushBack (.element i) = none) :=
  pushBack_appends (by decide) sampleOne (by decide) (by decide) (.value 9) 9 rfl
    (fun i h => by simp at h)

/-- C3: for a sequence of `pushBack` and `popBack` calls applied to an empty array
(`SizeBias ≥ 1`) in which every `popBack` finds `size() ≠ 0`, every call returns and the
final `size()` is the number of `pushBack` calls minus the number of `popBack` calls.  The
capacity never exceeds the number of `pushBack` calls times `SizeBias`, which is taken to
be a `size_t` value, below `2 ^ 64`. -/
theorem size_after_pushBack_popBack (hB : 1 ≤ SizeBias) (ops : List (BackOp T))
    (hcap : countPushBack ops * SizeBias < 2 ^ 64)
    (hvalid : ∀ (pre post : List (BackOp T)) (a : Array T SizeBias),
      ops = pre ++ BackOp.popBack :: post →
      (Array.empty : Array T SizeBias).runBack pre = some a → a.size ≠ 0) :
    ∃ a, (Array.empty : Array T SizeBias).runBack ops = some a ∧
      a.size = countPushBack ops - countPopBack ops ∧ countPopBack ops ≤ countPushBack ops := by
  obtain ⟨a, h1, _, h3, _⟩ := runBack_spec hB ops hcap hvalid
  exact ⟨a, h1, by omega, by omega⟩

/-- Witness of C3: `pushBack(1); pushBack(2); popBack(); pushBack(3)`, where the only
`popBack` is called on an array of size 2. -/
theorem size_after_pushBack_popBack_witness :
    ∃ a, (Array.empty : Array Nat 1).runBack sampleOps = some a ∧
      a.size = countPushBack sampleOps - countPopBack sampleOps ∧
      countPopBack sampleOps ≤ countPushBack sampleOps :=
  size_after_pushBack_popBack (by decide) sampleOps (by decide) (by
    intro pre post a h hrun
    match pre, h, hrun with
    | [], h, _ => simp [sampleOps] at h
    | [_], h, _ => simp [sampleOps] at h
    | [p, q], h, hrun =>
      simp only [sampleOps, List.cons_append, List.nil_append, List.cons.injEq] at h
      obtain ⟨rfl, rfl, _⟩ := h
      have ha : a = { pBegin := some [some 1, some 2], pNext := 2, pEnd := 2 } :=
        (Option.some.inj hrun).symm
      rw [ha]
      decide
    | [_, _, _], h, _ => simp [sampleOps] at h
    | _ :: _ :: _ :: _ :: rest, h, _ =>
      have hl := congrArg List.length h
      simp [sampleOps] at hl)

/-- C4, as stated, fails: on the array `[1, 2, 3]` held in a block of four slots the call
`a.pushFront(a[1])` passes a reference to the element 2 and reads it after the elements have
been moved one slot up, when the slot holds 1: the array becomes `[1, 1, 2, 3]` and `at(0)`
is 1, not 2. -/
theorem pushFront_own_element_shifted :
    sampleSpare.at_ 1 = some 2 ∧
      sampleSpare.pushFront (.element 1)
        = some { pBegin := some [some 1, some 1, some 2, some 3], pNext := 4, pEnd := 4 } ∧
      ({ pBegin := some [some 1, some 1, some 2, some 3], pNext := 4, pEnd := 4 }
        : Array Nat 1).at_ 0 = some 1 := by
  decide

/-- C4, amended: on a well-formed array with `SizeBias ≥ 1` and
`capacity() + SizeBias < 2 ^ 64`, for an argument that holds `v` when the call is made and
that is not in a slot the call destroys or overwrites (it lies outside the block of the
array, or the array is not full and the slot is the first one or one above `size()`),
`pushFront` returns, `at(0)` is `v`, `at(i + 1)` is the old `at(i)` for every `i` below the
old size and `size()` grows by one, whether the block was full or not.  An argument in slot
`i` of a non-full array, `1 ≤ i ≤ size()`, is read when the slot holds the old element
`i - 1`, and on a full array every argument in a slot of the array is read after the block
is destroyed. -/
theorem pushFront_prepends (hB : 1 ≤ SizeBias) (a : Array T SizeBias) (hwf : a.WF)
    (hcap : a.capacity + SizeBias < 2 ^ 64) (r : Ref T) (v : T)
    (hr : a.readRef false r = some v)
    (hout : ∀ i : Nat, r = Ref.element i → a.size < a.capacity ∧ (i = 0 ∨ a.size < i)) :
    (∃ a1, a.pushFront r = some a1 ∧ a1.at_ 0 = some v ∧
      (∀ i : Nat, i < a.size → a1.at_ ((i + 1 : Nat) : Int) = a.at_ (i : Int)) ∧
      a1.size = a.size + 1) ∧
      (∀ i : Nat, a.size < a.capacity → 1 ≤ i → i ≤ a.size →
        a.pushFront (.element i) = (a.deref (i - 1)).bind fun w => a.pushFront (.value w)) ∧
      (a.size = a.capacity → ∀ i : Nat, a.pushFront (.element i) = none) := by
  refine ⟨?_, fun i hlt h1 h2 => ?_, fun hfull i => pushFront_element_of_full a hfull i⟩
  · obtain ⟨a1, h1, _, h3, _, h5, h6⟩ := pushFront_spec hB a hwf hcap v
    refine ⟨a1, ?_, h5, h6, h3⟩
    cases r with
    | value w =>
      have hw : w = v := Option.some.inj hr
      rw [hw]; exact h1
    | element i =>
      obtain ⟨hlt, hi⟩ := hout i rfl
      have hlt1 : a.pNext < a.pEnd := hlt
      have hi1 : i = 0 ∨ a.pNext < i := hi
      have hd : a.deref i = some v := by simpa [readRef] using hr
      rw [pushFront_element_of_ne a hwf (by omega) i, if_neg (by omega), hd]
      exact h1
  · have hlt1 : a.pNext < a.pEnd := hlt
    have h3 : i ≤ a.pNext := h2
    rw [pushFront_element_of_ne a hwf (by omega) i, if_pos ⟨h1, h3⟩]

/-- Witness of C4 on a full array: `pushFront(9)` on `[4]` has to grow the block. -/
theorem pushFront_prepends_witness :
    (∃ a1, sampleOne.pushFront (.value 9) = some a1 ∧ a1.at_ 0 = some 9 ∧
      (∀ i : Nat, i < sampleOne.size → a1.at_ ((i + 1 : Nat) : Int) = sampleOne.at_ (i : Int)) ∧
      a1.size = sampleOne.size + 1) ∧
      (∀ i : Nat, sampleOne.size < sampleOne.capacity → 1 ≤ i → i ≤ sampleOne.size →
        sampleOne.pushFront (.element i)
          = (sampleOne.deref (i - 1)).bind fun w => sampleOne.pushFront (.value w)) ∧
      (sampleOne.size = sampleOne.capacity →
        ∀ i : Nat, sampleOne.pushFront (.element i) = none) :=
  pushFront_prepends (by decide) sampleOne (by decide) (by decide) (.value 9) 9 rfl
    (fun i h => by simp at h)

/-- C5: on a well-formed non-empty array `popFront()` returns the value `at(0)` had;
afterwards `size()` is one less, `capacity()` is unchanged and `at(i)` is the old `at(i + 1)`
for every `i` below the new size. -/
theorem popFront_returns_first (a : Array T SizeBias) (hwf : a.WF) (hne : a.size ≠ 0) :
    ∃ a1, a.popFront = some (a.at_ 0, a1) ∧ a1.size = a.size - 1 ∧
      a1.capacity = a.capacity ∧
      ∀ i : Nat, i < a1.size → a1.at_ (i : Int) = a.at_ ((i + 1 : Nat) : Int) := by
  obtain ⟨a1, h1, _, h3, h4, h5⟩ := popFront_spec a hwf hne
  exact ⟨a1, h1, h3, h4, fun i hi => h5 i (h3 ▸ hi)⟩

/-- Witness of C5 on the array `[4, 9]` held in a block of three slots. -/
theorem popFront_returns_first_witness :
    ∃ a1, sampleTwo.popFront = some (sampleTwo.at_ 0, a1) ∧ a1.size = sampleTwo.size - 1 ∧
      a1.capacity = sampleTwo.capacity ∧
      ∀ i : Nat, i < a1.size → a1.at_ (i : Int) = sampleTwo.at_ ((i + 1 : Nat) : Int) :=
  popFront_returns_first sampleTwo (by decide) (by decide)

/-- C6, as stated, fails: after `pushFront(1); pushFront(2)` on an empty array the two
`popFront()` calls return 2 and then 1, not 1 and then 2. -/
theorem pushFront_popFront_not_fifo :
    pushFrontThenPopFront 1 [1, 2] = some [some 2, some 1] ∧
      pushFrontThenPopFront 1 [1, 2] ≠ some ([1, 2].map some) := by
  constructor
  · rfl
  · decide

/-- C6, amended: for every list `x1..xn` and `SizeBias ≥ 1`, the calls `pushFront(x1)`, ...,
`pushFront(xn)` on an empty array followed by `n` calls of `popFront()` all return, and the
values returned are `xn, ..., x1`: the reverse of the insertion order (last in, first out).
The capacity never exceeds `n * SizeBias`, which is taken to be a `size_t` value, below
`2 ^ 64`. -/
theorem pushFront_popFront_lifo (hB : 1 ≤ SizeBias) (xs : List T)
    (hcap : xs.length * SizeBias < 2 ^ 64) :
    pushFrontThenPopFront SizeBias xs = some (xs.reverse.map some) := by
  obtain ⟨a, h1, h2⟩ := pushFrontAll_HasElems hB xs (Array.empty : Array T SizeBias) []
    empty_HasElems (by show 0 + _ < _; omega)
  rw [List.append_nil] at h2
  obtain ⟨a1, h3, _⟩ := popFrontN_HasElems xs.reverse a h2
  rw [List.length_reverse] at h3
  simp only [pushFrontThenPopFront, h1, h3, Option.map_some']

/-- Witness of the amended C6 on the list `[1, 2, 3]`. -/
theorem pushFront_popFront_lifo_witness :
    pushFrontThenPopFront 1 [1, 2, 3] = some (([1, 2, 3] : List Nat).reverse.map some) :=
  pushFront_popFront_lifo (by decide) [1, 2, 3] (by decide)

/-- C7: on a well-formed array of size `n < 2 ^ 63`, for an index `i` whose resolved position
`k` (`i` when `i ≥ 0`, `n + i` when `i < 0`) lies below `n`, `remove(i)` returns; afterwards
`size()` is `n - 1`, `capacity()` is unchanged, `at(j)` is unchanged for `j < k` and is the
old `at(j + 1)` for `k ≤ j < n - 1`. -/
theorem remove_deletes_position (a : Array T SizeBias) (hwf : a.WF) (hs : a.size < 2 ^ 63)
    (i : Int) (k : Nat) (hk : (k : Int) = if 0 ≤ i then i else (a.size : Int) + i)
    (hlt : k < a.size) :
    ∃ a1, a.remove i = some a1 ∧ a1.size = a.size - 1 ∧ a1.capacity = a.capacity ∧
      (∀ j : Nat, j < k → a1.at_ (j : Int) = a.at_ (j : Int)) ∧
      ∀ j : Nat, k ≤ j → j < a.size - 1 → a1.at_ (j : Int) = a.at_ ((j + 1 : Nat) : Int) := by
  obtain ⟨a1, h1, _, h3, h4, h5, h6⟩ :=
    remove_spec a hwf i k (processIndex_eq a hs i k hk hlt) hlt
  exact ⟨a1, h1, h3, h4, h5, h6⟩

/-- Witness of C7: `remove(-2)` on the array `[4, 9, 7]` deletes position 1. -/
theorem remove_deletes_position_witness :
    ∃ a1, sampleThree.remove (-2) = some a1 ∧ a1.size = sampleThree.size - 1 ∧
      a1.capacity = sampleThree.capacity ∧
      (∀ j : Nat, j < 1 → a1.at_ (j : Int) = sampleThree.at_ (j : Int)) ∧
      ∀ j : Nat, 1 ≤ j → j < sampleThree.size - 1 →
        a1.at_ (j : Int) = sampleThree.at_ ((j + 1 : Nat) : Int) :=
  remove_deletes_position sampleThree (by decide) (by decide) (-2) 1 (by decide) (by decide)

/-- C8: on an array of size `n < 2 ^ 63`, for `1 ≤ k ≤ n`, `at(-k)` reads the same element as
`at(n - k)`, and `operator[]` returns what `at` returns at both indices: the index `-k` is
processed to `n - k`, and `at(-k)`, `at(n - k)`, `operator[](-k)` and `operator[](n - k)` all
read slot `n - k` of the block.  On the array `[1, 2, 3, 4, 5]`, `at(-1)` and `at(4)` are 5,
`at(-5)` and `at(0)` are 1. -/
theorem at_negative_index (a : Array T SizeBias) (hs : a.size < 2 ^ 63) (k : Nat)
    (h1 : 1 ≤ k) (h2 : k ≤ a.size) :
    a.at_ (-(k : Int)) = a.at_ ((a.size - k : Nat) : Int) ∧
      a.index (-(k : Int)) = a.at_ (-(k : Int)) ∧
      a.index ((a.size - k : Nat) : Int) = a.at_ ((a.size - k : Nat) : Int) ∧
      a.processIndex (-(k : Int)) = ((a.size - k : Nat) : Int) ∧
      a.at_ (-(k : Int)) = (a.slots[a.size - k]?).join ∧
      a.at_ ((a.size - k : Nat) : Int) = (a.slots[a.size - k]?).join ∧
      a.index (-(k : Int)) = (a.slots[a.size - k]?).join ∧
      a.index ((a.size - k : Nat) : Int) = (a.slots[a.size - k]?).join ∧
      (∀ x : T, a.slots[a.size - k]? = some (some x) →
        a.at_ (-(k : Int)) = some x ∧ a.index (-(k : Int)) = some x) ∧
      (sampleFive.at_ (-1) = some 5 ∧ sampleFive.at_ 4 = some 5 ∧
        sampleFive.at_ (-5) = some 1 ∧ sampleFive.at_ 0 = some 1 ∧
        sampleFive.index (-1) = some 5 ∧ sampleFive.index (-5) = some 1) := by
  have hneg : a.at_ (-(k : Int)) = a.at_ ((a.size - k : Nat) : Int) := by
    unfold at_
    rw [processIndex_neg a k h1 h2 hs, processIndex_nonneg a _ (Int.ofNat_nonneg _)]
  have hslot : a.at_ ((a.size - k : Nat) : Int) = (a.slots[a.size - k]?).join :=
    at_natCast a (a.size - k)
  refine ⟨hneg, rfl, rfl, processIndex_neg a k h1 h2 hs, hneg.trans hslot, hslot,
    hneg.trans hslot, hslot, fun x hx => ?_, by decide⟩
  have hx1 : a.at_ (-(k : Int)) = some x := by rw [hneg, hslot, hx]; rfl
  exact ⟨hx1, hx1⟩

/-- Witness of C8: on the array `[1, 2, 3, 4, 5]`, `at(-5)` is `at(0)`. -/
theorem at_negative_index_witness :
    sampleFive.at_ (-((5 : Nat) : Int)) = sampleFive.at_ ((sampleFive.size - 5 : Nat) : Int) ∧
      sampleFive.index (-((5 : Nat) : Int)) = sampleFive.at_ (-((5 : Nat) : Int)) ∧
      sampleFive.index ((sampleFive.size - 5 : Nat) : Int)
        = sampleFive.at_ ((sampleFive.size - 5 : Nat) : Int) ∧
      sampleFive.processIndex (-((5 : Nat) : Int)) = ((sampleFive.size - 5 : Nat) : Int) ∧
      sampleFive.at_ (-((5 : Nat) : Int)) = (sampleFive.slots[sampleFive.size - 5]?).join ∧
      sampleFive.at_ ((sampleFive.size - 5 : Nat) : Int)
        = (sampleFive.slots[sampleFive.size - 5]?).join ∧
      sampleFive.index (-((5 : Nat) : Int)) = (sampleFive.slots[sampleFive.size - 5]?).join ∧
      sampleFive.index ((sampleFive.size - 5 : Nat) : Int)
        = (sampleFive.slots[sampleFive.size - 5]?).join ∧
      (∀ x : Nat, sampleFive.slots[sampleFive.size - 5]? = some (some x) →
        sampleFive.at_ (-((5 : Nat) : Int)) = some x ∧
          sampleFive.index (-((5 : Nat) : Int)) = some x) ∧
      (sampleFive.at_ (-1) = some 5 ∧ sampleFive.at_ 4 = some 5 ∧
        sampleFive.at_ (-5) = some 1 ∧ sampleFive.at_ 0 = some 1 ∧
        sampleFive.index (-1) = some 5 ∧ sampleFive.index (-5) = some 1) :=
  at_negative_index sampleFive (by decide) 5 (by decide) (by decide)

/-- C9: on an array whose elements are all defined values, `find(v)` returns; the result is
either the smallest index `r < size()` with `at(r) == v`, or, when no element equals `v`
(as on an empty array), the value `2 ^ 64 - 1` that `-1` converts to. -/
theorem find_first_index [DecidableEq T] (a : Array T SizeBias) (v : T)
    (hinit : ∀ i : Nat, i < a.size → (a.at_ (i : Int)).isSome) :
    ∃ r, a.find v = some r ∧
      ((r < a.size ∧ a.at_ (r : Int) = some v ∧
          ∀ j : Nat, j < r → a.at_ (j : Int) ≠ some v) ∨
        (r = 2 ^ 64 - 1 ∧ ∀ j : Nat, j < a.size → a.at_ (j : Int) ≠ some v)) := by
  obtain ⟨r, hr, hcase⟩ := findLoop_spec a v hinit (a.size + 1) 0 (Nat.zero_le _) (by omega)
  refine ⟨r, hr, ?_⟩
  rcases hcase with ⟨_, c2, c3, c4⟩ | ⟨c1, c2⟩
  · exact Or.inl ⟨c2, c3, fun j hj => c4 j (Nat.zero_le _) hj⟩
  · exact Or.inr ⟨c1, fun j hj => c2 j (Nat.zero_le _) hj⟩

/-- Witness of C9: `find(9)` on the array `[4, 9, 7]`. -/
theorem find_first_index_witness :
    ∃ r, sampleThree.find 9 = some r ∧
      ((r < sampleThree.size ∧ sampleThree.at_ (r : Int) = some 9 ∧
          ∀ j : Nat, j < r → sampleThree.at_ (j : Int) ≠ some 9) ∨
        (r = 2 ^ 64 - 1 ∧ ∀ j : Nat, j < sampleThree.size → sampleThree.at_ (j : Int) ≠ some 9)) :=
  find_first_index sampleThree 9 (by decide)

/-- C11: for every array and every argument `v`, inside the block of the array or not,
`resize(0, v)` returns and changes nothing: the array is the one it was, so `size()`,
`capacity()` and every `at(i)` are what they were and the block is still there. -/
theorem resize_zero_noop (a : Array T SizeBias) (v : Ref T) :
    ∃ a1, a.resize 0 v = some a1 ∧ a1 = a ∧ a1.size = a.size ∧ a1.capacity = a.capacity ∧
      (∀ i : Nat, i < a.size → a1.at_ (i : Int) = a.at_ (i : Int)) ∧ a1.pBegin = a.pBegin :=
  ⟨a, rfl, rfl, rfl, rfl, fun _ _ => rfl, rfl⟩

/-- C13: on a well-formed array, `pushBack` on a full array (`size() == capacity()`) with
`SizeBias ≥ 1` returns and raises `capacity()` by exactly `SizeBias`, the sum
`capacity() + SizeBias` being a `size_t` value, below `2 ^ 64`; `pushBack` on an array with
`size() < capacity()` returns and leaves `capacity()` unchanged. -/
theorem pushBack_growth_linear (a : Array T SizeBias) (hwf : a.WF) (v : T) :
    (a.size = a.capacity → 1 ≤ SizeBias → a.capacity + SizeBias < 2 ^ 64 →
        ∃ a1, a.pushBack (.value v) = some a1 ∧ a1.capacity = a.capacity + SizeBias) ∧
      (a.size < a.capacity → ∃ a1, a.pushBack (.value v) = some a1 ∧ a1.capacity = a.capacity) := by
  constructor
  · intro hfull hB hcap
    obtain ⟨a1, h1, _, _, h4, _⟩ := pushBack_spec hB a hwf hcap v
    rw [if_pos hfull] at h4
    exact ⟨a1, h1, h4⟩
  · intro hlt
    exact ⟨_, pushBack_of_lt a hwf hlt v, rfl⟩

/-- Witness of C13: `pushBack(9)` on the full array `[4]` (`SizeBias` 1) gives capacity 2,
and on the array `[4, 9]` held in a block of three slots it leaves capacity 3. -/
theorem pushBack_growth_linear_witness :
    (∃ a1, sampleOne.pushBack (.value 9) = some a1 ∧ a1.capacity = sampleOne.capacity + 1) ∧
      ∃ a1, sampleTwo.pushBack (.value 9) = some a1 ∧ a1.capacity = sampleTwo.capacity :=
  ⟨(pushBack_growth_linear sampleOne (by decide) 9).1 (by decide) (by decide) (by decide),
    (pushBack_growth_linear sampleTwo (by decide) 9).2 (by decide)⟩

/-- C14: from `Array<int>()` with `SizeBias` 1, `extend(3)` gives size 0 and capacity 3; the
three calls `pushBack(10)`, `pushBack(20)`, `pushBack(30)` each find `pNext != pEnd`, so none
of them extends, and they leave capacity 3 and size 3; `pushBack(40)` finds `pNext == pEnd`,
extends once and leaves capacity 4, size 4 and the values 10, 20, 30, 40 at indices 0 to 3. -/
theorem extend_then_pushBack_scenario :
    ∃ s0 s1 s2 s3 s4 : Array Nat 1,
      (Array.empty : Array Nat 1).extend 3 = some s0 ∧ s0.size = 0 ∧ s0.capacity = 3 ∧
      s0.pNext ≠ s0.pEnd ∧ s0.pushBack (.value 10) = some s1 ∧ s1.size = 1 ∧ s1.capacity = 3 ∧
      s1.pNext ≠ s1.pEnd ∧ s1.pushBack (.value 20) = some s2 ∧ s2.size = 2 ∧ s2.capacity = 3 ∧
      s2.pNext ≠ s2.pEnd ∧ s2.pushBack (.value 30) = some s3 ∧ s3.size = 3 ∧ s3.capacity = 3 ∧
      s3.pNext = s3.pEnd ∧ s3.extendIfFull = s3.extend 1 ∧
      s3.pushBack (.value 40) = some s4 ∧ s4.size = 4 ∧ s4.capacity = 4 ∧
      s4.contents = [some 10, some 20, some 30, some 40] :=
  ⟨{ pBegin := some [none, none, none], pNext := 0, pEnd := 3 },
    { pBegin := some [some 10, none, none], pNext := 1, pEnd := 3 },
    { pBegin := some [some 10, some 20, none], pNext := 2, pEnd := 3 },
    { pBegin := some [some 10, some 20, some 30], pNext := 3, pEnd := 3 },
    { pBegin := some [some 10, some 20, some 30, some 40], pNext := 4, pEnd := 4 },
    rfl, rfl, rfl, by decide, rfl, rfl, rfl, by decide, rfl, rfl, rfl, by decide, rfl, rfl, rfl,
    rfl, rfl, rfl, rfl, rfl, rfl⟩

/-- C15: the scenario `Array<int>({1,2,3}); pushBack(4); popFront(); remove(1); find(4)`:
after `pushBack(4)` the size is 4 and the contents are `[1,2,3,4]`; `popFront()` returns 1
and leaves `[2,3,4]`; `remove(1)` leaves `[2,4]`; `find(4)` returns 1. -/
theorem list_pushBack_popFront_remove_find_scenario :
    ∃ a0 a1 a2 a3 : Array Nat 1,
      constructList [1, 2, 3] = some a0 ∧
      a0.pushBack (.value 4) = some a1 ∧ a1.size = 4 ∧ a1.contents = [some 1, some 2, some 3, some 4] ∧
      a1.popFront = some (some 1, a2) ∧ a2.contents = [some 2, some 3, some 4] ∧
      a2.remove 1 = some a3 ∧ a3.contents = [some 2, some 4] ∧
      a3.find 4 = some 1 :=
  ⟨{ pBegin := some [some 1, some 2, some 3], pNext := 3, pEnd := 3 },
    { pBegin := some [some 1, some 2, some 3, some 4], pNext := 4, pEnd := 4 },
    { pBegin := some [some 2, some 3, some 4, some 4], pNext := 3, pEnd := 4 },
    { pBegin := some [some 2, some 4, some 4, some 4], pNext := 2, pEnd := 4 },
    rfl, rfl, rfl, rfl, rfl, rfl, rfl, rfl, rfl⟩

/-- C17: for every initializer list `l`, `Array(l)` is built with `size()` and `capacity()`
equal to `l.size()` and `at(i)` equal to the `i`-th value of `l` for every `i < l.size()`;
the empty list gives the array with the three pointers `nullptr`, of capacity 0. -/
theorem constructList_in_order (l : List T) :
    (∃ a : Array T SizeBias, constructList l = some a ∧ a.size = l.length ∧
        a.capacity = l.length ∧ ∀ i : Nat, i < l.length → a.at_ (i : Int) = l[i]?) ∧
      (constructList ([] : List T) : Option (Array T SizeBias)) = some Array.empty ∧
      (Array.empty : Array T SizeBias).capacity = 0 :=
  ⟨constructList_exists l, rfl, rfl⟩

/-- C18: for every well-formed array `src`, the copy constructor returns an array `c` with
`c.size() == src.size()`, `c.at(i) == src.at(i)` for every `i < src.size()` and
`c.capacity() == src.size()`, and `src` is what it was. -/
theorem copyConstruct_deep_copy (src : Array T SizeBias) (hwf : src.WF) :
    ∃ c src1, src.copyConstruct = some (c, src1) ∧ c.size = src.size ∧
      (∀ i : Nat, i < src.size → c.at_ (i : Int) = src.at_ (i : Int)) ∧
      c.capacity = src.size ∧ src1 = src := by
  by_cases hne : src.size = 0
  · refine ⟨Array.empty, src, ?_, hne.symm, fun i hi => ?_, hne.symm, rfl⟩
    · simp [copyConstruct, hne, Array.empty]
    · omega
  · refine ⟨_, src, copyConstruct_spec src hwf hne, rfl, fun i hi => ?_, rfl, rfl⟩
    have hi1 : i < src.pNext := hi
    rw [at_natCast, at_natCast, slots_mk, List.getElem?_take_of_lt hi1]

/-- Witness of C18: the copy of the array `[4, 9]` held in a block of three slots has
capacity 2. -/
theorem copyConstruct_deep_copy_witness :
    ∃ c src1, sampleTwo.copyConstruct = some (c, src1) ∧ c.size = sampleTwo.size ∧
      (∀ i : Nat, i < sampleTwo.size → c.at_ (i : Int) = sampleTwo.at_ (i : Int)) ∧
      c.capacity = sampleTwo.size ∧ src1 = sampleTwo :=
  copyConstruct_deep_copy sampleTwo (by decide)

/-- C19, as stated, fails: `extend(3)` on `Array()` gives a source of size 0 and capacity 3,
and the move constructor leaves it as it is, with capacity 3. -/
theorem moveConstruct_keeps_reserved_source :
    (Array.empty : Array Nat 1).extend 3 = some sampleReserved ∧
      sampleReserved.size = 0 ∧
      (sampleReserved.moveConstruct).2 = sampleReserved ∧
      (sampleReserved.moveConstruct).2.capacity = 3 ∧
      (sampleReserved.moveConstruct).2.capacity ≠ 0 := by
  refine ⟨rfl, rfl, rfl, rfl, ?_⟩
  decide

/-- C19, amended: for every array `src`, after the move constructor `src` has `size() == 0`;
when `src` had `size() ≠ 0` it also has `capacity() == 0` and its pointers are `nullptr`;
when `src` had `size() == 0` it is left as it was and keeps its capacity. -/
theorem moveConstruct_source_after (src : Array T SizeBias) :
    (src.moveConstruct).2.size = 0 ∧
      (src.size ≠ 0 → (src.moveConstruct).2.capacity = 0 ∧ (src.moveConstruct).2.pBegin = none) ∧
      (src.size = 0 → (src.moveConstruct).2 = src) := by
  by_cases h : src.size = 0
  · rw [moveConstruct_of_size_eq_zero src h]
    exact ⟨h, fun hne => absurd h hne, fun _ => rfl⟩
  · rw [moveConstruct_of_size_ne_zero src h]
    exact ⟨rfl, fun _ => ⟨rfl, rfl⟩, fun h0 => absurd h0 h⟩

/-- Witness of the amended C19: moving from the array `[4, 9]` leaves the source with
capacity 0, moving from the reserved empty array leaves the source as it was. -/
theorem moveConstruct_source_after_witness :
    ((sampleTwo.moveConstruct).2.capacity = 0 ∧ (sampleTwo.moveConstruct).2.pBegin = none) ∧
      (sampleReserved.moveConstruct).2 = sampleReserved :=
  ⟨(moveConstruct_source_after sampleTwo).2.1 (by decide),
    (moveConstruct_source_after sampleReserved).2.2 (by decide)⟩

/-- C20: for every array `src`, the array the move constructor builds has the size `src`
had and the same `at(i)` for every `i` below it; when `src` had `size() ≠ 0` it has the
three pointers `src` had, hence the same capacity and the same `at(i)` at every index. -/
theorem moveConstruct_takes_elements (src : Array T SizeBias) :
    (src.moveConstruct).1.size = src.size ∧
      (∀ i : Nat, i < src.size → (src.moveConstruct).1.at_ (i : Int) = src.at_ (i : Int)) ∧
      (src.size ≠ 0 → (src.moveConstruct).1.capacity = src.capacity ∧
        (src.moveConstruct).1 = src) := by
  by_cases h : src.size = 0
  · rw [moveConstruct_of_size_eq_zero src h]
    exact ⟨h.symm, fun i hi => absurd hi (by omega), fun hne => absurd h hne⟩
  · rw [moveConstruct_of_size_ne_zero src h]
    exact ⟨rfl, fun _ _ => rfl, fun _ => ⟨rfl, rfl⟩⟩

/-- Witness of C20: the array moved from `[4, 9]` (block of three slots) is that array. -/
theorem moveConstruct_takes_elements_witness :
    (sampleTwo.moveConstruct).1.capacity = sampleTwo.capacity ∧
      (sampleTwo.moveConstruct).1 = sampleTwo :=
  (moveConstruct_takes_elements sampleTwo).2.2 (by decide)

/-- C21: for every array, `clear()` leaves the three pointers `nullptr`, so `size()` and
`capacity()` are 0, and a second `clear()` leaves the same state as the first. -/
theorem clear_idempotent (a : Array T SizeBias) :
    a.clear.size = 0 ∧ a.clear.capacity = 0 ∧ a.clear = Array.empty ∧
      a.clear.clear = a.clear ∧ a.clear.clear.size = 0 :=
  ⟨rfl, rfl, rfl, rfl, rfl⟩

/-- C22: for arrays `a` and `b` whose elements are defined values (`size() < 2 ^ 63`),
`a == b` returns, and it returns `true` exactly when `a.size() == b.size()` and
`a.at(i) == b.at(i)` for every `i < a.size()`; the capacities do not enter. -/
theorem eq_iff_same_elements [DecidableEq T] (a b : Array T SizeBias) (hs : a.size < 2 ^ 63)
    (ha : ∀ i : Nat, i < a.size → (a.at_ (i : Int)).isSome)
    (hb : ∀ i : Nat, i < b.size → (b.at_ (i : Int)).isSome) :
    ∃ r, a.eq b = some r ∧
      (r = true ↔ a.size = b.size ∧
        ∀ i : Nat, i < a.size → a.at_ (i : Int) = b.at_ (i : Int)) := by
  unfold eq
  by_cases hsz : b.size = a.size
  · obtain ⟨r, hr, hiff⟩ := eqLoop_spec a b hs ha (fun i hi => hb i (hsz ▸ hi)) (a.size + 1) 0
      (Nat.zero_le _) (by omega)
    refine ⟨r, by simp [hsz, hr], ?_⟩
    rw [hiff]
    constructor
    · intro h
      exact ⟨hsz.symm, fun i hi => h i (Nat.zero_le _) hi⟩
    · intro h i _ hi
      exact h.2 i hi
  · refine ⟨false, by simp [hsz], ?_⟩
    constructor
    · intro h; cases h
    · intro h; exact absurd h.1.symm hsz

/-- Witness of C22: the array `[4, 9]` held in a block of three slots equals the array
`[4, 9]` held in a block of two slots. -/
theorem eq_iff_same_elements_witness :
    ∃ r, sampleTwo.eq ({ pBegin := some [some 4, some 9], pNext := 2, pEnd := 2 } : Array Nat 1)
        = some r ∧
      (r = true ↔ sampleTwo.size
          = ({ pBegin := some [some 4, some 9], pNext := 2, pEnd := 2 } : Array Nat 1).size ∧
        ∀ i : Nat, i < sampleTwo.size → sampleTwo.at_ (i : Int)
          = ({ pBegin := some [some 4, some 9], pNext := 2, pEnd := 2 }
              : Array Nat 1).at_ (i : Int)) :=
  eq_iff_same_elements sampleTwo { pBegin := some [some 4, some 9], pNext := 2, pEnd := 2 }
    (by decide) (by decide) (by decide)

/-- C24: when the source is empty (`other.size() == 0`, or an empty list), copy assignment,
move assignment and list assignment to `d` return at their guard: `d` is the array it was,
with its size, capacity and elements, and the source is what it was. -/
theorem assign_empty_source_noop (d other : Array T SizeBias) (h : other.size = 0) :
    d.copyAssign other = some (d, other) ∧ d.moveAssign other = (d, other) ∧
      d.listAssign [] = some d := by
  refine ⟨?_, ?_, rfl⟩
  · simp [copyAssign, h]
  · simp [moveAssign, h]

/-- Witness of C24: assigning the reserved empty array to the array `[4, 9]`. -/
theorem assign_empty_source_noop_witness :
    sampleTwo.copyAssign sampleReserved = some (sampleTwo, sampleReserved) ∧
      sampleTwo.moveAssign sampleReserved = (sampleTwo, sampleReserved) ∧
      sampleTwo.listAssign [] = some sampleTwo :=
  assign_empty_source_noop sampleTwo sampleReserved (by decide)

/-- C25, as stated, fails: when the allocator refuses every request, `resize(2, 7)` on the
array `[4, 9]` throws after `clear()`, and the array is left with the three pointers
`nullptr`, size 0 and capacity 0. -/
theorem resize_badAlloc_clears_array :
    tryResize (fun _ => false) sampleTwo 2 (.value 7) = Outcome.badAlloc Array.empty ∧
      sampleTwo.size = 2 ∧ sampleTwo.capacity = 3 ∧
      (Array.empty : Array Nat 1).size = 0 ∧ (Array.empty : Array Nat 1).capacity = 0 ∧
      (Array.empty : Array Nat 1) ≠ sampleTwo := by
  refine ⟨rfl, rfl, rfl, rfl, rfl, ?_⟩
  decide

/-- C25, amended: when the allocator refuses the block that is requested, `extend`, and
`pushBack` and `pushFront` on a full array, throw and leave the array as it was; `resize(n, v)`
with `n > 0` throws and leaves the array cleared (`size()` and `capacity()` 0, no block).
The block requested by `extend(n)` has `getNewCapacity(n)` slots, and the argument `v` may
lie inside the block of the array or outside it: it is not read before the request. -/
theorem badAlloc_state (allocOk : Nat → Bool) (a : Array T SizeBias) (v : Ref T) (n : Nat) :
    (allocOk (a.getNewCapacity n) = false → tryExtend allocOk a n = Outcome.badAlloc a) ∧
      (a.size = a.capacity → allocOk (a.getNewCapacity SizeBias) = false →
        tryPushBack allocOk a v = Outcome.badAlloc a ∧
        tryPushFront allocOk a v = Outcome.badAlloc a) ∧
      (0 < n → allocOk n = false → tryResize allocOk a n v = Outcome.badAlloc a.clear ∧
        a.clear.size = 0 ∧ a.clear.capacity = 0 ∧ a.clear.pBegin = none) := by
  refine ⟨fun hext => tryExtend_of_fail allocOk a n hext, fun hfull hpush => ?_,
    fun hn hres => ?_⟩
  · have hp : a.pNext = a.pEnd := hfull
    have he : tryExtendIfFull allocOk a = Outcome.badAlloc a := by
      unfold tryExtendIfFull
      rw [if_pos hp]
      exact tryExtend_of_fail allocOk a SizeBias hpush
    constructor
    · simp only [tryPushBack, he]
    · simp only [tryPushFront, he]
  · have hn0 : n ≠ 0 := by omega
    refine ⟨?_, rfl, rfl, rfl⟩
    simp [tryResize, hn0, hres]

/-- Witness of the amended C25 on the full array `[4]`, with an allocator that refuses
every request. -/
theorem badAlloc_state_witness :
    tryExtend (fun _ => false) sampleOne 2 = Outcome.badAlloc sampleOne ∧
      (tryPushBack (fun _ => false) sampleOne (.value 9) = Outcome.badAlloc sampleOne ∧
        tryPushFront (fun _ => false) sampleOne (.value 9) = Outcome.badAlloc sampleOne) ∧
      (tryResize (fun _ => false) sampleOne 2 (.value 9) = Outcome.badAlloc sampleOne.clear ∧
        sampleOne.clear.size = 0 ∧ sampleOne.clear.capacity = 0 ∧
        sampleOne.clear.pBegin = none) :=
  ⟨(badAlloc_state (fun _ => false) sampleOne (.value 9) 2).1 rfl,
    (badAlloc_state (fun _ => false) sampleOne (.value 9) 2).2.1 (by decide) rfl,
    (badAlloc_state (fun _ => false) sampleOne (.value 9) 2).2.2 (by decide) rfl⟩

/-- C26: on an empty array `occurence(v)` returns 0; on a non-empty array whose first
element is a defined value the loop never leaves its first iteration: `itr` is never
advanced, so after any number of tests of `itr != end()` the loop is still running and
nothing has been returned. -/
theorem occurence_never_returns [DecidableEq T] (a : Array T SizeBias) (v : T) (fuel : Nat) :
    (a.size = 0 → a.occurence v (fuel + 1) = LoopResult.returned 0) ∧
      (a.size ≠ 0 → (a.deref 0).isSome → a.occurence v fuel = LoopResult.running) := by
  constructor
  · intro h
    have hp : a.pNext = 0 := h
    simp [occurence, occurenceLoop, hp]
  · intro hne h0
    exact occurenceLoop_running a v hne h0 fuel 0

/-- Witness of C26: `occurence(4)` on the array `[4]` has not returned after 1000 tests of
the loop condition. -/
theorem occurence_never_returns_witness :
    sampleOne.occurence 4 1000 = LoopResult.running :=
  (occurence_never_returns sampleOne 4 1000).2 (by decide) (by decide)

/-- C31: for an array of size `n < 2 ^ 64` and a `long long` index `i`, `isValidIndex(i)` is
`true` exactly when `-n ≤ i < n`, which is exactly when the position `i` resolves to (`i`
when `i ≥ 0`, `n + i` when `i < 0`) lies in `[0, n)`; on an empty array it is `false`. -/
theorem isValidIndex_iff (a : Array T SizeBias) (hn : a.size < 2 ^ 64) (i : Int)
    (hlo : -(2 ^ 63 : Int) ≤ i) (hhi : i < 2 ^ 63) :
    (a.isValidIndex i = true ↔ -(a.size : Int) ≤ i ∧ i < (a.size : Int)) ∧
      (a.isValidIndex i = true ↔
        0 ≤ (if 0 ≤ i then i else (a.size : Int) + i) ∧
          (if 0 ≤ i then i else (a.size : Int) + i) < (a.size : Int)) ∧
      (a.size = 0 → a.isValidIndex i = false) := by
  unfold isValidIndex toSizeT
  refine ⟨?_, ?_, ?_⟩
  · split_ifs <;> simp only [decide_eq_true_eq] <;> omega
  · split_ifs <;> simp only [decide_eq_true_eq] <;> omega
  · intro h0
    split_ifs <;> simp only [decide_eq_false_iff_not] <;> omega

/-- Witness of C31: on the array `[4, 9, 7]`, `isValidIndex(-3)` is `true`. -/
theorem isValidIndex_iff_witness :
    sampleThree.isValidIndex (-3) = true ↔
      -(sampleThree.size : Int) ≤ -3 ∧ (-3 : Int) < (sampleThree.size : Int) :=
  (isValidIndex_iff sampleThree (by decide) (-3) (by decide) (by decide)).1

/-- C33: for every array `a` and every well-formed non-empty source `b`, a distinct object:
copy assignment returns, leaves `a` with `size()` and `capacity()` equal to `b.size()` and
with the elements of `b`, and leaves `b` as it was; move assignment leaves `a` with the
state `b` had (size, capacity, elements) and `b` with the three pointers `nullptr`; neither
result depends on what `a` was. -/
theorem assign_nonempty_source (a b : Array T SizeBias) (hwf : b.WF) (hne : b.size ≠ 0) :
    (∃ a1, a.copyAssign b = some (a1, b) ∧ a1.size = b.size ∧ a1.capacity = b.size ∧
        ∀ i : Nat, i < b.size → a1.at_ (i : Int) = b.at_ (i : Int)) ∧
      a.moveAssign b = (b, Array.empty) ∧
      (Array.empty : Array T SizeBias).size = 0 ∧
      (Array.empty : Array T SizeBias).capacity = 0 ∧
      ∀ c : Array T SizeBias, c.copyAssign b = a.copyAssign b ∧
        c.moveAssign b = a.moveAssign b := by
  refine ⟨⟨_, copyAssign_spec a b hwf hne, rfl, rfl, fun i hi => ?_⟩,
    moveAssign_of_size_ne_zero a b hne, rfl, rfl, fun c => ⟨?_, ?_⟩⟩
  · have hi1 : i < b.pNext := hi
    rw [at_natCast, at_natCast, slots_mk, List.getElem?_take_of_lt hi1]
  · rw [copyAssign_spec a b hwf hne, copyAssign_spec c b hwf hne]
  · rw [moveAssign_of_size_ne_zero a b hne, moveAssign_of_size_ne_zero c b hne]

/-- Witness of C33: assigning the array `[4, 9]` (block of three slots) to the array `[4]`. -/
theorem assign_nonempty_source_witness :
    (∃ a1, sampleOne.copyAssign sampleTwo = some (a1, sampleTwo) ∧ a1.size = sampleTwo.size ∧
        a1.capacity = sampleTwo.size ∧
        ∀ i : Nat, i < sampleTwo.size → a1.at_ (i : Int) = sampleTwo.at_ (i : Int)) ∧
      sampleOne.moveAssign sampleTwo = (sampleTwo, Array.empty) ∧
      (Array.empty : Array Nat 1).size = 0 ∧
      (Array.empty : Array Nat 1).capacity = 0 ∧
      ∀ c : Array Nat 1, c.copyAssign sampleTwo = sampleOne.copyAssign sampleTwo ∧
        c.moveAssign sampleTwo = sampleOne.moveAssign sampleTwo :=
  assign_nonempty_source sampleOne sampleTwo (by decide) (by decide)

/-- C34: for every array of size `n`, the loop that starts a `ReverseIterator` at `end()`
and advances it with `++` while it compares `!=` to `begin()` ends, dereferences the
iterator `n` times and yields `at(n-1)`, `at(n-2)`, ..., `at(0)` in that order; on an empty
array nothing is visited. -/
theorem reverseTraverse_visits_backwards (a : Array T SizeBias) :
    reverseTraverse a (a.size + 1) (ReverseIterator.construct a.end_)
        = some ((List.range a.size).reverse.map fun i : Nat => a.at_ (i : Int)) ∧
      ((List.range a.size).reverse.map fun i : Nat => a.at_ (i : Int)).length = a.size ∧
      (a.size = 0 →
        reverseTraverse a (a.size + 1) (ReverseIterator.construct a.end_) = some []) := by
  have h := reverseTraverse_spec a a.size
  refine ⟨h, by simp, fun h0 => ?_⟩
  have h' := h
  rw [h0] at h' ⊢
  simpa [ReverseIterator.construct, end_, show a.pNext = 0 from h0] using h'

/-- C35: from every position, `it += 1` moves the pointer one slot up and `it++` one slot
down, so the two never agree; for every `k ≥ 1`, `it += k` ends `2 * k` slots above the
position `k` applications of `it++` reach. -/
theorem addAssign_opposite_to_increment (it : ReverseIterator) (k : Nat) (hk : 1 ≤ k) :
    (it.addAssign 1).pEnd = it.pEnd + 1 ∧ it.increment.pEnd = it.pEnd - 1 ∧
      it.addAssign 1 ≠ it.increment ∧
      (it.addAssign k).pEnd = (ReverseIterator.increment^[k] it).pEnd + 2 * (k : Int) ∧
      it.addAssign k ≠ ReverseIterator.increment^[k] it := by
  have hit := increment_iterate it k
  refine ⟨rfl, rfl, ?_, ?_, ?_⟩
  · intro h
    have := congrArg ReverseIterator.pEnd h
    simp only [ReverseIterator.addAssign, ReverseIterator.increment] at this
    omega
  · rw [hit]
    simp only [ReverseIterator.addAssign]
    omega
  · intro h
    have := congrArg ReverseIterator.pEnd h
    rw [hit] at this
    simp only [ReverseIterator.addAssign] at this
    omega

/-- Witness of C35: from the position of the last element of an array of size 3 (offset 2),
`it += 1` reaches offset 3 and `it++` offset 1. -/
theorem addAssign_opposite_to_increment_witness :
    ((ReverseIterator.construct 3).addAssign 1).pEnd = (ReverseIterator.construct 3).pEnd + 1 ∧
      (ReverseIterator.construct 3).increment.pEnd = (ReverseIterator.construct 3).pEnd - 1 ∧
      (ReverseIterator.construct 3).addAssign 1 ≠ (ReverseIterator.construct 3).increment ∧
      ((ReverseIterator.construct 3).addAssign 1).pEnd
        = (ReverseIterator.increment^[1] (ReverseIterator.construct 3)).pEnd
          + 2 * ((1 : Nat) : Int) ∧
      (ReverseIterator.construct 3).addAssign 1
        ≠ ReverseIterator.increment^[1] (ReverseIterator.construct 3) :=
  addAssign_opposite_to_increment (ReverseIterator.construct 3) 1 (by decide)

end Array

/-! ## The operations of `String` on well-formed states -/

namespace String

theorem CreateNewBlock_defined (n : Nat) : ∀ x ∈ CreateNewBlock n, x.isSome = true := by
  intro x hx
  rw [(List.mem_replicate.mp hx).2]
  rfl

theorem string_deref_eq_slots (s : String) (i : Nat) : s.deref i = (s.slots[i]?).join := by
  unfold deref slots
  cases s.string <;> simp

theorem string_processIndex_nonneg (s : String) (i : Int) (h : 0 ≤ i) : s.processIndex i = i := by
  unfold processIndex
  simp [not_lt.mpr h]

theorem string_at_natCast (s : String) (i : Nat) : s.at_ (i : Int) = (s.slots[i]?).join := by
  unfold at_ subscript
  rw [string_processIndex_nonneg s i (Int.ofNat_nonneg i)]
  simp [string_deref_eq_slots]

theorem string_slots_mk (blk : Block Nat) (n : Nat) :
    ({ string := some blk, length := n } : String).slots = blk := rfl

theorem append_spec (s : String) (hwf : s.WF) (c : Nat) :
    ∃ r, s.append c = some r ∧ r.WF ∧ r.size = s.size + 1 ∧
      (∀ i : Nat, i < s.size → r.at_ (i : Int) = s.at_ (i : Int)) ∧
      r.at_ (s.size : Int) = some 0 ∧ r.at_ ((s.size + 1 : Nat) : Int) = some c := by
  rcases hwf with ⟨hnull, hlen⟩ | ⟨hnn, hlen, hdef⟩
  · refine ⟨{ string := some [some 0, some c], length := 1 }, ?_, ?_, ?_, ?_, ?_, ?_⟩
    · simp [append, hnull, hlen, CreateNewBlock, writeSlot, List.replicate]
    · right
      refine ⟨by simp, rfl, ?_⟩
      intro x hx
      simp [slots] at hx
      rcases hx with rfl | rfl <;> rfl
    · show 1 = s.length + 1
      rw [hlen]
    · intro i hi
      have : i < s.length := hi
      omega
    · have : s.size = 0 := hlen
      rw [this]; rfl
    · have : s.size = 0 := hlen
      rw [this]; rfl
  · obtain ⟨blk, hblk⟩ := Option.ne_none_iff_exists'.mp hnn
    have hsl : s.slots = blk := by simp [slots, hblk]
    rw [hsl] at hlen hdef
    have c1 : 0 ≤ s.length + 1 - 1 := Nat.zero_le _
    have c2 : s.length + 1 - 1 ≤ blk.length := by omega
    have c3 : 0 + (s.length + 1 - 1 - 0) ≤ (CreateNewBlock (s.length + 1 + 1)).length := by
      simp only [CreateNewBlock, List.length_replicate]
      omega
    have hml := moved_length (CreateNewBlock (s.length + 1 + 1)) blk c1 c2 c3
    have hnl : (CreateNewBlock (s.length + 1 + 1)).length = s.length + 2 := by
      simp [CreateNewBlock]
    have hw : s.length + 1 < ((CreateNewBlock (s.length + 1 + 1)).take 0
        ++ (blk.drop 0).take (s.length + 1 - 1 - 0)
        ++ (CreateNewBlock (s.length + 1 + 1)).drop (0 + (s.length + 1 - 1 - 0))).length := by
      rw [hml, hnl]; omega
    unfold append
    simp only [hblk, moveBlock_of_le _ blk c1 c2 c3, writeSlot_of_lt _ c hw]
    refine ⟨_, rfl, ?_, ?_, ?_, ?_, ?_⟩
    · right
      refine ⟨by simp, ?_, ?_⟩
      · rw [string_slots_mk, List.length_set, hml, hnl]
      · rw [string_slots_mk]
        exact set_all_defined _ _ _
          (moved_all_defined _ _ _ _ _ _ (CreateNewBlock_defined _) hdef)
    · rfl
    · intro i hi
      have hi1 : i < s.length := hi
      rw [string_at_natCast, string_at_natCast, string_slots_mk, hsl, List.getElem?_set_ne (by omega),
        moved_getElem? _ blk c1 c2 c3, if_neg (by omega), if_pos (by omega)]
      congr 2
      omega
    · have hsz : s.size = s.length := rfl
      rw [string_at_natCast, string_slots_mk, hsz, List.getElem?_set_ne (by omega),
        moved_getElem? _ blk c1 c2 c3, if_neg (by omega), if_neg (by omega)]
      simp only [CreateNewBlock, List.getElem?_replicate]
      rw [if_pos (by omega)]
      rfl
    · have hsz : s.size = s.length := rfl
      rw [string_at_natCast, string_slots_mk, hsz, List.getElem?_set_self hw]
      rfl

theorem subSizeT_of_le (x y : Nat) (h : y ≤ x) (hx : x < 2 ^ 64) : subSizeT x y = x - y := by
  unfold subSizeT
  omega

theorem assignAt_natCast (nb : Block Nat) (len k ch : Nat) (hk : k < nb.length) :
    ({ string := some nb, length := len } : String).assignAt (k : Int) ch
      = some { string := some (nb.set k (some ch)), length := len } := by
  unfold assignAt
  rw [string_processIndex_nonneg _ _ (Int.ofNat_nonneg k)]
  simp only [not_lt.mpr (Int.ofNat_nonneg k), if_false, Int.toNat_ofNat, string_slots_mk,
    writeSlot_of_lt nb ch hk]

theorem subStringLoop_spec (s : String) (blk : Block Nat) (hblk : s.string = some blk)
    (st en : Nat) (hen : en < 2 ^ 63)
    (hdef : ∀ i : Nat, i < en → ∃ ch, blk[i]? = some (some ch)) :
    ∀ (fuel index : Nat) (nb : Block Nat), st ≤ index → index ≤ en → en < index + fuel →
      nb.length = en - st + 1 →
      ∃ r, s.subStringLoop st en fuel index { string := some nb, length := en - st }
          = some { string := some r, length := en - st } ∧ r.length = nb.length ∧
        ∀ j : Nat, r[j]? = if index - st ≤ j ∧ j < en - st then blk[st + j]? else nb[j]? := by
  intro fuel
  induction fuel with
  | zero => intro index nb h1 h2 h3; omega
  | succ f ih =>
    intro index nb h1 h2 h3 hlen
    by_cases hlt : index < en
    · obtain ⟨ch, hch⟩ := hdef index hlt
      have hd : s.deref index = some ch := by
        simp [deref, hblk, hch]
      have hsub : toLongLong (subSizeT index st) = ((index - st : Nat) : Int) := by
        rw [subSizeT_of_le index st h1 (by omega), toLongLong_of_lt _ (by omega)]
      have hk : index - st < nb.length := by omega
      obtain ⟨r, hr, hrl, hget⟩ := ih (index + 1) (nb.set (index - st) (some ch)) (by omega)
        hlt (by omega) (by rw [List.length_set]; exact hlen)
      refine ⟨r, ?_, ?_, fun j => ?_⟩
      · simp only [subStringLoop, hlt, if_true, hd, hsub, assignAt_natCast nb _ _ ch hk]
        exact hr
      · rw [hrl, List.length_set]
      · rw [hget j]
        by_cases hj : index + 1 - st ≤ j ∧ j < en - st
        · rw [if_pos hj, if_pos (by omega)]
        · rw [if_neg hj]
          by_cases hj2 : j = index - st
          · subst hj2
            rw [List.getElem?_set_self hk, if_pos (by omega)]
            rw [show st + (index - st) = index by omega, hch]
          · rw [List.getElem?_set_ne (Ne.symm hj2), if_neg (by omega)]
    · refine ⟨nb, ?_, rfl, fun j => ?_⟩
      · simp [subStringLoop, hlt]
      · rw [if_neg (by omega)]

theorem resolve_eq (len : Nat) (hs : len < 2 ^ 63) (idx : Int) (k : Nat)
    (hk : (k : Int) = if 0 ≤ idx then idx else (len : Int) + idx) :
    (if idx < 0 then toLongLong ((len + toSizeT idx) % 2 ^ 64) else idx) = (k : Int) := by
  unfold toLongLong toSizeT
  split_ifs at hk ⊢ <;> omega

theorem toSizeT_natCast (k : Nat) (h : k < 2 ^ 64) : toSizeT (k : Int) = k := by
  unfold toSizeT
  omega

theorem subString_spec (s : String) (hwf : s.WF) (hs : s.length < 2 ^ 63)
    (startIndex endIndex : Int) (st en : Nat)
    (hst : (st : Int) = if 0 ≤ startIndex then startIndex else (s.length : Int) + startIndex)
    (hen : (en : Int) = if 0 ≤ endIndex then endIndex else (s.length : Int) + endIndex)
    (h1 : st ≤ en) (h2 : en ≤ s.length) :
    ∃ r, s.subString startIndex endIndex = some r ∧ r.size = en - st ∧
      ∀ i : Nat, i < en - st → r.at_ (i : Int) = s.at_ ((st + i : Nat) : Int) := by
  have e1 := resolve_eq s.length hs startIndex st hst
  have e2 := resolve_eq s.length hs endIndex en hen
  have e3 : toSizeT ((en : Int) - (st : Int)) = en - st := by
    rw [← Int.ofNat_sub h1]
    exact toSizeT_natCast _ (by omega)
  unfold subString
  simp only [e1, e2, e3, toSizeT_natCast st (by omega), toSizeT_natCast en (by omega)]
  rcases hwf with ⟨hnull, hlen⟩ | ⟨hnn, hlen, hdef⟩
  · have hen0 : en = 0 := by omega
    have hst0 : st = 0 := by omega
    subst hen0 hst0
    refine ⟨construct 0, ?_, rfl, fun i hi => ?_⟩
    · simp [subStringLoop]
    · omega
  · obtain ⟨blk, hblk⟩ := Option.ne_none_iff_exists'.mp hnn
    have hsl : s.slots = blk := by simp [slots, hblk]
    rw [hsl] at hlen hdef
    have hdef' : ∀ i : Nat, i < en → ∃ ch, blk[i]? = some (some ch) := by
      intro i hi
      have hi' : i < blk.length := by omega
      have hm := hdef _ (List.getElem_mem hi')
      obtain ⟨ch, hch⟩ := Option.isSome_iff_exists.mp hm
      exact ⟨ch, by rw [List.getElem?_eq_getElem hi', hch]⟩
    obtain ⟨r, hr, hrl, hget⟩ := subStringLoop_spec s blk hblk st en (by omega) hdef'
      (en - st + 1) st (CreateNewBlock (en - st + 1)) (le_refl _) h1 (by omega)
      (by simp [CreateNewBlock])
    refine ⟨_, hr, rfl, fun i hi => ?_⟩
    rw [string_at_natCast, string_at_natCast, string_slots_mk, hsl, hget i, if_pos (by omega)]

theorem copyAssign_of_nonempty (s t : String) (h1 : t.length ≠ 0) (h2 : t.string ≠ none) :
    s.copyAssign t = some { string := some [some 0], length := 0 } := by
  have hc : ¬ (t.length = 0 ∨ t.string = none) := by
    intro h
    rcases h with h | h
    · exact h1 h
    · exact h2 h
  have hcopy : copyBlock (CreateNewBlock (s.clear.length + 1)) 0 t.slots 0 s.clear.length
      = some [some 0] := by
    show copyBlock (CreateNewBlock (0 + 1)) 0 t.slots 0 0 = some [some 0]
    rw [copyBlock_of_le _ _ (le_refl 0) (Nat.zero_le _) (by simp [CreateNewBlock])]
    simp [CreateNewBlock]
  unfold copyAssign
  rw [if_neg hc]
  simp only [hcopy]
  rfl

/-! ## Properties of the specification: `String` -/

/-- C27: on a well-formed string, `append(c)` returns and `size()` grows by one, and `at(i)`
is unchanged for every `i` below the old size; but the last character `at(size() - 1)` is
the 0 the new block was filled with, and `c` is stored one slot further, at index `size()`,
where the terminator belongs. -/
theorem append_stores_past_end (s : String) (hwf : s.WF) (c : Nat) :
    ∃ r, s.append c = some r ∧ r.size = s.size + 1 ∧
      (∀ i : Nat, i < s.size → r.at_ (i : Int) = s.at_ (i : Int)) ∧
      r.at_ ((r.size - 1 : Nat) : Int) = some 0 ∧ r.at_ (r.size : Int) = some c := by
  obtain ⟨r, h1, _, h3, h4, h5, h6⟩ := append_spec s hwf c
  refine ⟨r, h1, h3, h4, ?_, ?_⟩
  · rw [h3, Nat.add_sub_cancel]; exact h5
  · rw [h3]; exact h6

/-- Witness of C27: `String("ab").append('c')` holds `a`, `b`, 0, `c` with length 3, so
`at(2)` is 0 and not `c`. -/
theorem append_stores_past_end_witness :
    ∃ r, sampleAb.append 99 = some r ∧ r.size = sampleAb.size + 1 ∧
      (∀ i : Nat, i < sampleAb.size → r.at_ (i : Int) = sampleAb.at_ (i : Int)) ∧
      r.at_ ((r.size - 1 : Nat) : Int) = some 0 ∧ r.at_ (r.size : Int) = some 99 :=
  append_stores_past_end sampleAb (by decide) 99

/-- C28: `String("xac").find(String("ab"))` returns 1 although `ab` occurs nowhere in `xac`,
and `String("xaab").find(String("ab"))` returns 1 although the first occurrence of `ab` is
at index 2: for an outer index `index` the inner loop runs `itr` from `index` to
`str.length`, not to `index + str.length`. -/
theorem find_string_wrong_index :
    constructCString cstrXac = some sampleXac ∧ constructCString cstrAb = some sampleAb ∧
      constructCString cstrXaab = some sampleXaab ∧
      sampleXac.find sampleAb = some 1 ∧
      (∀ k : Nat, k < sampleXac.length → ¬ sampleXac.occursAt sampleAb k) ∧
      sampleXaab.find sampleAb = some 1 ∧
      ¬ sampleXaab.occursAt sampleAb 1 ∧ sampleXaab.occursAt sampleAb 2 := by
  refine ⟨rfl, rfl, rfl, rfl, ?_, rfl, ?_, ?_⟩ <;> decide

/-- C29: on a well-formed string of length below `2 ^ 63`, for indices whose resolved values
`st` and `en` (the index itself when it is not negative, `size()` plus the index when it is)
satisfy `st ≤ en ≤ size()`, `subString(start, end)` returns a string of size `en - st` whose
`i`-th character is `at(st + i)` for every `i < en - st`. -/
theorem subString_copies_range (s : String) (hwf : s.WF) (hs : s.length < 2 ^ 63)
    (startIndex endIndex : Int) (st en : Nat)
    (hst : (st : Int) = if 0 ≤ startIndex then startIndex else (s.size : Int) + startIndex)
    (hen : (en : Int) = if 0 ≤ endIndex then endIndex else (s.size : Int) + endIndex)
    (h1 : st ≤ en) (h2 : en ≤ s.size) :
    ∃ r, s.subString startIndex endIndex = some r ∧ r.size = en - st ∧
      ∀ i : Nat, i < en - st → r.at_ (i : Int) = s.at_ ((st + i : Nat) : Int) :=
  subString_spec s hwf hs startIndex endIndex st en hst hen h1 h2

/-- Witness of C29: `String("xaab").subString(-3, 3)` is the two characters at indices 1
and 2. -/
theorem subString_copies_range_witness :
    ∃ r, sampleXaab.subString (-3) 3 = some r ∧ r.size = 3 - 1 ∧
      ∀ i : Nat, i < 3 - 1 → r.at_ (i : Int) = sampleXaab.at_ ((1 + i : Nat) : Int) :=
  subString_copies_range sampleXaab (by decide) (by decide) (-3) 3 1 3 (by decide) (by decide)
    (by decide) (by decide)

/-- C30: for every string `s` and every non-empty string `t` (`t.size() ≠ 0`, `t.string` not
`nullptr`), the copy assignment `s = t` returns and leaves `s` with length 0 and a block of
one 0: `clear()` resets `length`, which is never set to `t.length`, so `s.size()` is not
`t.size()` and `s == t` is `false`. -/
theorem copyAssign_loses_length (s t : String) (h1 : t.size ≠ 0) (h2 : t.string ≠ none) :
    ∃ r, s.copyAssign t = some r ∧ r.size = 0 ∧ r.size ≠ t.size ∧ r.eq t = some false := by
  refine ⟨_, copyAssign_of_nonempty s t h1 h2, rfl, fun h => h1 h.symm, ?_⟩
  have hne : (0 : Nat) ≠ t.length := fun h => h1 h.symm
  simp [eq, hne]

/-- Witness of C30: after `s = t` with `s` the string `xac` and `t` the string `ab`, the
size of `s` is 0. -/
theorem copyAssign_loses_length_witness :
    ∃ r, sampleXac.copyAssign sampleAb = some r ∧ r.size = 0 ∧ r.size ≠ sampleAb.size ∧
      r.eq sampleAb = some false :=
  copyAssign_loses_length sampleXac sampleAb (by decide) (by decide)

end String

/-! ## The search of `FindContainer` on sorted vectors -/

namespace BinaryHashMap
variable {Key Value : Type}

theorem hashes_getElem? (m : BinaryHashMap Key Value) (i : Nat) :
    m.hashes[i]? = (m.mEntries[i]?).map fun c => c.mHash := by
  simp [hashes, List.getElem?_map]

theorem hashes_length (m : BinaryHashMap Key Value) : m.hashes.length = m.mEntries.length := by
  simp [hashes]

theorem SortedByHash_le (m : BinaryHashMap Key Value) (hsorted : m.SortedByHash)
    (i j : Nat) (hij : i ≤ j) (x y : Nat) (hx : m.hashes[i]? = some x)
    (hy : m.hashes[j]? = some y) : x ≤ y := by
  rcases Nat.eq_or_lt_of_le hij with h | h
  · subst h
    rw [hx] at hy
    exact Nat.le_of_eq (Option.some.inj hy)
  · obtain ⟨hi, hxi⟩ := List.getElem?_eq_some_iff.mp hx
    obtain ⟨hj, hyj⟩ := List.getElem?_eq_some_iff.mp hy
    have := (List.pairwise_iff_getElem.mp hsorted) i j hi hj h
    rw [hxi, hyj] at this
    exact this

theorem FindContainerLoop_spec (m : BinaryHashMap Key Value) (hsorted : m.SortedByHash)
    (hash : Nat) : ∀ fuel pBegin size : Nat, size < fuel → pBegin + size ≤ m.mEntries.length →
      (∀ i x, i < pBegin → m.hashes[i]? = some x → x < hash) →
      (∀ i x, pBegin + size ≤ i → m.hashes[i]? = some x → hash ≤ x) →
      ∃ p, m.FindContainerLoop hash fuel pBegin size = some p ∧ p ≤ m.mEntries.length ∧
        (∀ i x, i < p → m.hashes[i]? = some x → x < hash) ∧
        (∀ i x, p ≤ i → m.hashes[i]? = some x → hash ≤ x) := by
  intro fuel
  induction fuel with
  | zero => intro pBegin size h; omega
  | succ n ih =>
    intro pBegin size hfuel hlen hbelow habove
    rw [FindContainerLoop]
    by_cases hsize : size = 0
    · subst hsize
      simp only [ne_eq, not_true_eq_false, if_false]
      exact ⟨pBegin, rfl, by omega, hbelow, fun i x hi => habove i x (by omega)⟩
    · have hdata : pBegin + size / 2 < m.mEntries.length := by omega
      obtain ⟨c, hc⟩ : ∃ c, m.mEntries[pBegin + size / 2]? = some c :=
        ⟨_, List.getElem?_eq_getElem hdata⟩
      have hhash : m.hashes[pBegin + size / 2]? = some c.mHash := by
        rw [hashes_getElem?, hc]; rfl
      simp only [ne_eq, hsize, not_false_eq_true, if_true, hc]
      by_cases hlt : c.mHash < hash
      · rw [if_pos hlt]
        refine ih (pBegin + size / 2 + 1) (size - (size / 2 + 1)) (by omega) (by omega) ?_ ?_
        · intro i x hi hx
          have := SortedByHash_le m hsorted i (pBegin + size / 2) (by omega) x c.mHash hx hhash
          omega
        · intro i x hi hx
          exact habove i x (by omega) hx
      · rw [if_neg hlt]
        refine ih pBegin (size / 2) (by omega) (by omega) hbelow ?_
        intro i x hi hx
        have := SortedByHash_le m hsorted (pBegin + size / 2) i hi c.mHash x hhash hx
        omega

theorem FindContainer_spec (m : BinaryHashMap Key Value) (hsorted : m.SortedByHash)
    (hash : Nat) :
    ∃ p, m.FindContainer hash m.mEntries.length = some p ∧ p ≤ m.mEntries.length ∧
      (∀ i x, i < p → m.hashes[i]? = some x → x < hash) ∧
      (∀ i x, p ≤ i → m.hashes[i]? = some x → hash ≤ x) :=
  FindContainerLoop_spec m hsorted hash (m.mEntries.length + 1) 0 m.mEntries.length
    (by omega) (by omega) (fun i x hi => by omega)
    (fun i x hi hx => by
      have := List.getElem?_eq_some_iff.mp hx
      obtain ⟨h1, _⟩ := this
      rw [hashes_length] at h1
      omega)

theorem FindContainer_of_hash_above (m : BinaryHashMap Key Value) (hsorted : m.SortedByHash)
    (hash : Nat) (habove : ∀ x ∈ m.hashes, x < hash) :
    m.FindContainer hash m.mEntries.length = some m.mEntries.length := by
  obtain ⟨p, hp, hle, _, hge⟩ := FindContainer_spec m hsorted hash
  rw [hp]
  congr 1
  by_contra hne
  have hlt : p < m.hashes.length := by rw [hashes_length]; omega
  have h1 := hge p _ (Nat.le_refl p) (List.getElem?_eq_getElem hlt)
  have h2 := habove _ (List.getElem_mem hlt)
  omega

theorem GetFuel_of_hash_above (hashOf : Key → Nat) (defaultValue : Value)
    (m : BinaryHashMap Key Value) (hsorted : m.SortedByHash) (key : Key)
    (hne : m.mEntries.length ≠ 0) (habove : ∀ x ∈ m.hashes, x < hashOf key) (fuel : Nat) :
    GetFuel hashOf defaultValue (fuel + 1) m key = none := by
  rw [GetFuel]
  simp only [FindContainer_of_hash_above m hsorted (hashOf key) habove, hne, if_false,
    List.getElem?_eq_none (Nat.le_refl _)]

/-! ### The calls of `Get` and `Insert` that are defined -/

theorem sortEntries_sorted (entries : List (Container Key Value)) :
    SortedByHash { mEntries := sortEntries entries } := by
  have htotal : IsTotal (Container Key Value) fun left right => left.mHash ≤ right.mHash :=
    ⟨fun a b => Nat.le_total a.mHash b.mHash⟩
  have htrans : IsTrans (Container Key Value) fun left right => left.mHash ≤ right.mHash :=
    ⟨fun a b c hab hbc => Nat.le_trans hab hbc⟩
  have h := List.sorted_insertionSort (fun left right : Container Key Value =>
    left.mHash ≤ right.mHash) entries
  unfold SortedByHash hashes
  rw [List.pairwise_map]
  exact h

theorem sortEntries_mem (entries : List (Container Key Value)) (c : Container Key Value) :
    c ∈ sortEntries entries ↔ c ∈ entries :=
  (List.perm_insertionSort _ entries).mem_iff

theorem sortEntries_length (entries : List (Container Key Value)) :
    (sortEntries entries).length = entries.length :=
  (List.perm_insertionSort _ entries).length_eq

theorem FindContainerLoop_congr (m1 m2 : BinaryHashMap Key Value) (h : m1.hashes = m2.hashes)
    (hash : Nat) : ∀ fuel pBegin size : Nat,
      m1.FindContainerLoop hash fuel pBegin size = m2.FindContainerLoop hash fuel pBegin size := by
  intro fuel
  induction fuel with
  | zero => intro pBegin size; rfl
  | succ n ih =>
    intro pBegin size
    have hd : (m1.mEntries[pBegin + size / 2]?).map (fun c => c.mHash)
        = (m2.mEntries[pBegin + size / 2]?).map (fun c => c.mHash) := by
      rw [← hashes_getElem?, ← hashes_getElem?, h]
    rw [FindContainerLoop, FindContainerLoop]
    by_cases hsize : size = 0
    · simp only [hsize, ne_eq, not_true_eq_false, if_false]
    · simp only [ne_eq, hsize, not_false_eq_true, if_true]
      cases h1 : m1.mEntries[pBegin + size / 2]? with
      | none =>
        rw [h1] at hd
        cases h2 : m2.mEntries[pBegin + size / 2]? with
        | none => rfl
        | some c2 => rw [h2] at hd; simp at hd
      | some c1 =>
        rw [h1] at hd
        cases h2 : m2.mEntries[pBegin + size / 2]? with
        | none => rw [h2] at hd; simp at hd
        | some c2 =>
          rw [h2] at hd
          have hc : c1.mHash = c2.mHash := by simpa using hd
          simp only [hc, ih]

theorem GetFuel_of_mem (hashOf : Key → Nat) (defaultValue : Value)
    (m : BinaryHashMap Key Value) (hsorted : m.SortedByHash) (key : Key)
    (hmem : hashOf key ∈ m.hashes) (fuel : Nat) :
    ∃ p c, m.FindContainer (hashOf key) m.mEntries.length = some p ∧
      m.mEntries[p]? = some c ∧ c.mHash = hashOf key ∧
      GetFuel hashOf defaultValue (fuel + 1) m key = some (p, m) := by
  obtain ⟨p, hp, hle, hlt, hge⟩ := FindContainer_spec m hsorted (hashOf key)
  obtain ⟨j, hj, hjx⟩ := List.getElem_of_mem hmem
  have hjs : m.hashes[j]? = some (hashOf key) := by
    rw [List.getElem?_eq_getElem hj, hjx]
  have hpj : p ≤ j := by
    by_contra hcon
    have := hlt j _ (by omega) hjs
    omega
  have hjl : j < m.mEntries.length := by rw [← hashes_length]; exact hj
  have hpl : p < m.mEntries.length := by omega
  have hps : m.hashes[p]? = some (m.mEntries[p]).mHash := by
    rw [hashes_getElem?, List.getElem?_eq_getElem hpl]; rfl
  have h1 := hge p _ (Nat.le_refl p) hps
  have h2 := SortedByHash_le m hsorted p j hpj _ _ hps hjs
  have heq : (m.mEntries[p]).mHash = hashOf key := by omega
  refine ⟨p, m.mEntries[p], hp, List.getElem?_eq_getElem hpl, heq, ?_⟩
  have hne : m.mEntries.length ≠ 0 := by omega
  rw [GetFuel]
  simp only [hp, hne, if_false, List.getElem?_eq_getElem hpl, heq, if_true]

theorem GetFuel_some (hashOf : Key → Nat) (defaultValue : Value) (key : Key) :
    ∀ (fuel : Nat) (m : BinaryHashMap Key Value), m.SortedByHash →
      ∀ (p : Nat) (m1 : BinaryHashMap Key Value),
        GetFuel hashOf defaultValue fuel m key = some (p, m1) →
        m1.SortedByHash ∧ m1.FindContainer (hashOf key) m1.mEntries.length = some p ∧
          ∃ c, m1.mEntries[p]? = some c ∧ c.mHash = hashOf key := by
  intro fuel
  induction fuel with
  | zero => intro m _ p m1 h; simp [GetFuel] at h
  | succ n ih =>
    intro m hsorted p m1 h
    rw [GetFuel] at h
    cases hfc : m.FindContainer (hashOf key) m.mEntries.length with
    | none => simp [hfc] at h
    | some q =>
      simp only [hfc] at h
      by_cases hlen : m.mEntries.length = 0
      · rw [if_pos hlen] at h
        exact ih _ (sortEntries_sorted _) p m1 h
      · rw [if_neg hlen] at h
        cases hq : m.mEntries[q]? with
        | none => simp [hq] at h
        | some c =>
          simp only [hq] at h
          by_cases hc : c.mHash = hashOf key
          · rw [if_pos hc] at h
            obtain ⟨h1, h2⟩ := Prod.mk.inj (Option.some.inj h)
            subst h1 h2
            exact ⟨hsorted, hfc, c, hq, hc⟩
          · rw [if_neg hc] at h
            exact ih _ (sortEntries_sorted _) p m1 h

theorem Get_of_reachable_hash (hashOf : Key → Nat) (defaultValue : Value)
    (m : BinaryHashMap Key Value) (hsorted : m.SortedByHash) (key : Key)
    (h : m.mEntries.length = 0 ∨ ∃ x ∈ m.hashes, hashOf key ≤ x) :
    ∃ p m1, Get hashOf defaultValue m key = some (p, m1) := by
  have hins : ∀ fuel : Nat, ∃ p m1, GetFuel hashOf defaultValue (fuel + 1)
      { mEntries := sortEntries (m.mEntries ++ [{ mKey := key, mValue := defaultValue,
                                                  mHash := hashOf key }]) } key
        = some (p, m1) := by
    intro fuel
    have hmem : hashOf key ∈ (BinaryHashMap.mk (sortEntries (m.mEntries ++
        [{ mKey := key, mValue := defaultValue, mHash := hashOf key }]))).hashes := by
      unfold hashes
      rw [List.mem_map]
      exact ⟨{ mKey := key, mValue := defaultValue, mHash := hashOf key },
        (sortEntries_mem _ _).mpr (by simp), rfl⟩
    obtain ⟨p, c, _, _, _, hg⟩ :=
      GetFuel_of_mem hashOf defaultValue _ (sortEntries_sorted _) key hmem fuel
    exact ⟨p, _, hg⟩
  obtain ⟨q, hq, hle, hlt, hge⟩ := FindContainer_spec m hsorted (hashOf key)
  unfold Get
  rw [GetFuel]
  simp only [hq]
  by_cases hlen : m.mEntries.length = 0
  · rw [if_pos hlen]
    exact hins 0
  · rw [if_neg hlen]
    have hex : ∃ x ∈ m.hashes, hashOf key ≤ x := by
      rcases h with h | h
      · exact absurd h hlen
      · exact h
    obtain ⟨x, hx, hxk⟩ := hex
    obtain ⟨j, hj, hjx⟩ := List.getElem_of_mem hx
    have hjs : m.hashes[j]? = some x := by rw [List.getElem?_eq_getElem hj, hjx]
    have hqj : q ≤ j := by
      by_contra hcon
      have := hlt j _ (by omega) hjs
      omega
    have hql : q < m.mEntries.length := by
      have : j < m.mEntries.length := by rw [← hashes_length]; exact hj
      omega
    rw [List.getElem?_eq_getElem hql]
    simp only
    by_cases hc : (m.mEntries[q]).mHash = hashOf key
    · rw [if_pos hc]
      exact ⟨q, m, rfl⟩
    · rw [if_neg hc]
      exact hins 0

theorem Insert_GetValue_round_trip (hashOf : Key → Nat) (defaultValue : Value)
    (m m1 : BinaryHashMap Key Value) (hsorted : m.SortedByHash) (key : Key) (data : Value)
    (h : Insert hashOf defaultValue m key data = some m1) :
    m1.SortedByHash ∧ GetValue hashOf defaultValue m1 key = some (data, m1) := by
  unfold Insert at h
  cases hg : Get hashOf defaultValue m key with
  | none => simp [hg] at h
  | some r =>
    obtain ⟨p, m2⟩ := r
    obtain ⟨hs2, hf2, c, hc, hch⟩ := GetFuel_some hashOf defaultValue key 2 m hsorted p m2 hg
    simp only [hg, hc] at h
    have hm1 := (Option.some.inj h).symm
    have hpl : p < m2.mEntries.length := (List.getElem?_eq_some_iff.mp hc).1
    have hhashes : m1.hashes = m2.hashes := by
      rw [hm1]
      apply List.ext_getElem?
      intro i
      rw [hashes_getElem?, hashes_getElem?]
      by_cases hip : p = i
      · subst hip
        simp only [List.getElem?_set_self hpl, hc, Option.map_some', hch]
      · simp only [List.getElem?_set_ne hip]
    have hlen : m1.mEntries.length = m2.mEntries.length := by
      rw [hm1]; simp
    have hs1 : m1.SortedByHash := by
      unfold SortedByHash
      rw [hhashes]
      exact hs2
    have hf1 : m1.FindContainer (hashOf key) m1.mEntries.length = some p := by
      rw [← hf2, hlen]
      exact FindContainerLoop_congr m1 m2 hhashes _ _ _ _
    have hc1 : m1.mEntries[p]? = some { c with mValue := data } := by
      rw [hm1]
      exact List.getElem?_set_self hpl
    have hne : m1.mEntries.length ≠ 0 := by omega
    refine ⟨hs1, ?_⟩
    have hget : Get hashOf defaultValue m1 key = some (p, m1) := by
      unfold Get
      rw [GetFuel]
      simp only [hf1, hne, if_false, hc1, hch, if_true]
    unfold GetValue
    simp only [hget, hc1]

/-! ## Properties of the specification: `BinaryHashMap` and `FindIndex` -/

/-- C36: for every entry vector sorted ascending by hash and every hash `h`,
`FindContainer(h, mEntries.size())` returns, within `size + 1` tests of its loop condition,
a position `p ≤ size` such that every entry before `p` has a hash less than `h` and every
entry from `p` on has a hash not less than `h`: `p` is the position of the first entry whose
hash is not less than `h`, and it is one past the end when every stored hash is less
than `h`. -/
theorem FindContainer_lower_bound (m : BinaryHashMap Key Value) (hsorted : m.SortedByHash)
    (hash : Nat) :
    ∃ p, m.FindContainer hash m.mEntries.length = some p ∧ p ≤ m.mEntries.length ∧
      (∀ i x, i < p → m.hashes[i]? = some x → x < hash) ∧
      (∀ i x, p ≤ i → m.hashes[i]? = some x → hash ≤ x) ∧
      (p < m.mEntries.length → ∃ c, m.mEntries[p]? = some c ∧ hash ≤ c.mHash) ∧
      ((∀ x ∈ m.hashes, x < hash) → p = m.mEntries.length) := by
  obtain ⟨p, hp, hle, hlt, hge⟩ := FindContainer_spec m hsorted hash
  refine ⟨p, hp, hle, hlt, hge, fun hpl => ?_, fun habove => ?_⟩
  · refine ⟨m.mEntries[p], List.getElem?_eq_getElem hpl, ?_⟩
    apply hge p _ (Nat.le_refl p)
    rw [hashes_getElem?, List.getElem?_eq_getElem hpl]
    rfl
  · have h := FindContainer_of_hash_above m hsorted hash habove
    rw [hp] at h
    exact Option.some.inj h

/-- Witness of C36: the lower bound of hash 5 in the vector of hashes 2, 5, 5, 9. -/
theorem FindContainer_lower_bound_witness :
    ∃ p, sampleSorted.FindContainer 5 sampleSorted.mEntries.length = some p ∧
      p ≤ sampleSorted.mEntries.length ∧
      (∀ i x, i < p → sampleSorted.hashes[i]? = some x → x < 5) ∧
      (∀ i x, p ≤ i → sampleSorted.hashes[i]? = some x → 5 ≤ x) ∧
      (p < sampleSorted.mEntries.length →
        ∃ c, sampleSorted.mEntries[p]? = some c ∧ 5 ≤ c.mHash) ∧
      ((∀ x ∈ sampleSorted.hashes, x < 5) → p = sampleSorted.mEntries.length) :=
  FindContainer_lower_bound sampleSorted (by decide) 5

/-- C37: for every hash function and every two keys `k1`, `k2` with
`hash(k1) < hash(k2)`: `Insert(k1, v1)` on the map just constructed gives the map with the
one entry of `k1`, from which `Get(k1)` returns `v1`; in the call `Insert(k2, v2)` on that
map `FindContainer` returns position 1, which is `mEntries.size()`, and `Get(k2)` reads
`mHash` there, so whatever the number of calls followed the call is undefined and so is the
round trip for `k2`. -/
theorem Insert_after_smaller_hash (hashOf : Key → Nat) (defaultValue : Value) (k1 k2 : Key)
    (v1 v2 : Value) (h : hashOf k1 < hashOf k2) :
    Insert hashOf defaultValue empty k1 v1
        = some { mEntries := [{ mKey := k1, mValue := v1, mHash := hashOf k1 }] } ∧
      GetValue hashOf defaultValue
          { mEntries := [{ mKey := k1, mValue := v1, mHash := hashOf k1 }] } k1
        = some (v1, { mEntries := [{ mKey := k1, mValue := v1, mHash := hashOf k1 }] }) ∧
      FindContainer { mEntries := [{ mKey := k1, mValue := v1, mHash := hashOf k1 }] }
          (hashOf k2) 1 = some 1 ∧
      (∀ fuel : Nat, GetFuel hashOf defaultValue (fuel + 1)
          { mEntries := [{ mKey := k1, mValue := v1, mHash := hashOf k1 }] } k2 = none) ∧
      Insert hashOf defaultValue
          { mEntries := [{ mKey := k1, mValue := v1, mHash := hashOf k1 }] } k2 v2 = none := by
  have hget : ∀ fuel : Nat, GetFuel hashOf defaultValue (fuel + 1)
      { mEntries := [{ mKey := k1, mValue := v1, mHash := hashOf k1 }] } k2 = none :=
    GetFuel_of_hash_above hashOf defaultValue _ (by simp [SortedByHash, hashes]) k2
      (by simp) (by simpa [hashes] using h)
  refine ⟨?_, ?_, ?_, hget, ?_⟩
  · simp [Insert, Get, GetFuel, FindContainer, FindContainerLoop, sortEntries, empty]
  · simp [GetValue, Get, GetFuel, FindContainer, FindContainerLoop]
  · simp [FindContainer, FindContainerLoop, h]
  · simp only [Insert, Get, hget 1]

/-- Witness of C37: keys 1 and 2 hashed to themselves. -/
theorem Insert_after_smaller_hash_witness :
    Insert id 0 (empty : BinaryHashMap Nat Nat) 1 10
        = some { mEntries := [{ mKey := 1, mValue := 10, mHash := id 1 }] } ∧
      GetValue id 0
          ({ mEntries := [{ mKey := 1, mValue := 10, mHash := id 1 }] } : BinaryHashMap Nat Nat) 1
        = some (10, { mEntries := [{ mKey := 1, mValue := 10, mHash := id 1 }] }) ∧
      FindContainer
          ({ mEntries := [{ mKey := 1, mValue := 10, mHash := id 1 }] } : BinaryHashMap Nat Nat)
          (id 2) 1 = some 1 ∧
      (∀ fuel : Nat, GetFuel id 0 (fuel + 1)
          ({ mEntries := [{ mKey := 1, mValue := 10, mHash := id 1 }] } : BinaryHashMap Nat Nat)
          2 = none) ∧
      Insert id 0
          ({ mEntries := [{ mKey := 1, mValue := 10, mHash := id 1 }] } : BinaryHashMap Nat Nat)
          2 20 = none :=
  Insert_after_smaller_hash id 0 1 2 10 20 (by decide)

/-- C38: for every map with at least one entry, sorted ascending by hash, and every key whose
hash is greater than every stored hash, the position `Get(key)` obtains from `FindContainer`
is `mEntries.size()`, which is not the position of an entry: the read `pContainer->mHash` is
past the end of the vector and `Get(key)` is undefined, whatever the number of calls
followed. -/
theorem Get_reads_past_the_end (hashOf : Key → Nat) (defaultValue : Value)
    (m : BinaryHashMap Key Value) (hsorted : m.SortedByHash) (key : Key)
    (hne : m.mEntries.length ≠ 0) (habove : ∀ x ∈ m.hashes, x < hashOf key) :
    m.FindContainer (hashOf key) m.mEntries.length = some m.mEntries.length ∧
      m.mEntries[m.mEntries.length]? = none ∧
      (∀ fuel : Nat, GetFuel hashOf defaultValue (fuel + 1) m key = none) ∧
      Get hashOf defaultValue m key = none :=
  ⟨FindContainer_of_hash_above m hsorted (hashOf key) habove,
    List.getElem?_eq_none (Nat.le_refl _),
    GetFuel_of_hash_above hashOf defaultValue m hsorted key hne habove,
    GetFuel_of_hash_above hashOf defaultValue m hsorted key hne habove 1⟩

/-- Witness of C38: the map reached by `Insert(1, 10)` from the map just constructed, and
`Get(2)`, keys hashed to themselves. -/
theorem Get_reads_past_the_end_witness :
    Insert id 0 (empty : BinaryHashMap Nat Nat) 1 10 = some sampleMap ∧
      sampleMap.FindContainer (id 2) sampleMap.mEntries.length
        = some sampleMap.mEntries.length ∧
      sampleMap.mEntries[sampleMap.mEntries.length]? = none ∧
      (∀ fuel : Nat, GetFuel id 0 (fuel + 1) sampleMap 2 = none) ∧
      Get id 0 sampleMap 2 = none :=
  ⟨rfl, Get_reads_past_the_end id 0 sampleMap (by decide) 2 (by decide) (by decide)⟩

end BinaryHashMap

/-- C39: on the vector `[1]` and the hash 0, which does not occur in it, `FindIndex` returns
1, the index of the first zero the call itself appended, and not -1; likewise it returns 5
on `[5, 6, 7, 8, 9]`.  A hash that occurs among the original elements before any zero is
found at its index. -/
theorem FindIndex_finds_padding :
    FindIndex [1] 0 = (some 1, [1, 0, 0, 0]) ∧ (0 : Nat) ∉ [1] ∧
      ¬ ((1 : Int) < (([1] : List Nat).length : Int)) ∧
      FindIndex [5, 6, 7, 8, 9] 0 = (some 5, [5, 6, 7, 8, 9, 0, 0, 0]) ∧
      (0 : Nat) ∉ [5, 6, 7, 8, 9] ∧
      FindIndex [5, 6, 7, 8, 9] 9 = (some 4, [5, 6, 7, 8, 9, 0, 0, 0]) ∧
      FindIndex [5, 6, 7, 8] 3 = (some (-1), [5, 6, 7, 8]) := by
  refine ⟨rfl, by decide, by decide, rfl, by decide, rfl, rfl⟩

end Sandbox
